import Mathlib

/-!
Verification of the `reparse` repository: a generic regex-driven tokenizing
engine (`Parser` in `src/index.ts`) together with a JSON parser built on it
(a push-down automaton of context objects).

Shallow embedding conventions:
* JS strings are modelled as `List Char` (one entry per code point; offsets
  are list indices).
* JS exceptions are modelled with `Except Err`: `IndexedError` carries
  `index = some i`, a plain `Error` carries `index = none`.
* JS numbers produced by `+matched` are represented by the matched source
  token (the numeric value is a function of that token, and no theorem here
  depends on float arithmetic).
* The external scanner (`rexscan`) is modelled per its contract: successive
  sticky matches of the rule alternation at strictly increasing offsets;
  a JS regex alternation matches the first alternative (in declaration
  order) that can match at the current offset.
-/

/-- An error: `IndexedError` has `index = some i`; a plain `Error` has
`index = none`. -/
structure Err where
  index : Option Nat
  message : String
  deriving DecidableEq, Repr

/-- JSON values as assembled by the parser (`JSONVALUE` in the source).
`num` keeps the matched source token; the runtime value is `+token`. -/
inductive JSONVALUE where
  | null : JSONVALUE
  | bool (b : Bool) : JSONVALUE
  | num (token : String) : JSONVALUE
  | str (s : String) : JSONVALUE
  | arr (elems : List JSONVALUE) : JSONVALUE
  | obj (fields : List (String × JSONVALUE)) : JSONVALUE

/-- Source `Typeof`: the runtime kind name of a JSON value. -/
def Typeof : JSONVALUE → String
  | .null => "null"
  | .bool _ => "boolean"
  | .num _ => "number"
  | .str _ => "string"
  | .arr _ => "array"
  | .obj _ => "object"

mutual
/-- JS template-literal stringification of a value, as in
`` `Unexpected ${Typeof(value)}: ${value}` ``.  Numbers are rendered as
their source token (see module conventions). -/
def jsToString : JSONVALUE → String
  | .null => "null"
  | .bool true => "true"
  | .bool false => "false"
  | .num t => t
  | .str s => s
  | .arr xs => jsArrJoin xs
  | .obj _ => "[object Object]"

/-- One element rendered inside `Array.prototype.join` (`null` becomes
the empty string there). -/
def jsArrElem : JSONVALUE → String
  | .null => ""
  | .bool true => "true"
  | .bool false => "false"
  | .num t => t
  | .str s => s
  | .arr xs => jsArrJoin xs
  | .obj _ => "[object Object]"

/-- Rendering by `Array.prototype.join(',')`. -/
def jsArrJoin : List JSONVALUE → String
  | [] => ""
  | [x] => jsArrElem x
  | x :: y :: rest => jsArrElem x ++ "," ++ jsArrJoin (y :: rest)
end

/-- Source `unexpectedValue`: a plain (unindexed) error naming
the value's runtime kind. -/
def unexpectedValue (v : JSONVALUE) : Err :=
  ⟨none, "Unexpected " ++ Typeof v ++ ": " ++ jsToString v⟩

/-- Source `unexpectedCharacter`. -/
def unexpectedCharacter (c : String) : Err :=
  ⟨none, "Unexpected character: `" ++ c ++ "`"⟩

/-- Plain own-property update: an existing key keeps its position and
receives the new value, a new key is appended. -/
def jsAssignOwn : List (String × JSONVALUE) → String → JSONVALUE → List (String × JSONVALUE)
  | [], n, v => [(n, v)]
  | (k, w) :: rest, n, v =>
    if k = n then (k, v) :: rest else (k, w) :: jsAssignOwn rest n v

/-- JS property assignment `obj[name] = value` on an object made by an
object literal.  For an ordinary name this creates or updates the own
property (`jsAssignOwn`).  For the name "__proto__" the assignment finds
the inherited accessor on `Object.prototype` instead, so no own property
is created or updated: a primitive value is silently discarded, and an
object (or `null`) value only rewrites the object's prototype slot, which
is not among its own properties.  The prototype slot itself is outside
the structural value this model tracks; in particular, after a parse has
set a prototype to `null` (or to an object whose chain hides the
accessor), a later "__proto__" assignment on that same object would in JS
create an own property — inputs reaching that state are outside this
model and outside the theorems below, whose "__proto__" entries carry
primitive values. -/
def jsAssign (xs : List (String × JSONVALUE)) (n : String) (v : JSONVALUE) :
    List (String × JSONVALUE) :=
  if n = "__proto__" then xs else jsAssignOwn xs n v

/-- States of `ArrayContext.state` in the source. -/
inductive AState where
  | INITIAL | VALUE | COMMA
  deriving DecidableEq, Repr

/-- States of `ObjectContext.state` in the source. -/
inductive OState where
  | INITIAL | NAME | COLON | VALUE | COMMA
  deriving DecidableEq, Repr

/-- The active parse context: `RootContext`, `ArrayContext` or
`ObjectContext` from the source, as one closed type.

The source's nested contexts register their mutable collection into the
parent at construction time (`save.add(this.value)`) and `close…` returns
the (already updated) parent.  The parent cannot change while the child is
active, so this embedding checks admissibility of that `add` at
construction (`mkArrayContext` / `mkObjectContext`) and performs the `add`
with the completed collection at close; success, error messages and final
values are identical to the source's mutate-in-place behaviour. -/
inductive Ctx where
  | root (value : Option JSONVALUE)
  | arrCtx (save : Ctx) (start : Nat) (state : AState) (acc : List JSONVALUE)
  | objCtx (save : Ctx) (start : Nat) (state : OState)
      (acc : List (String × JSONVALUE)) (name : Option String)

/-- Operation `add` of the active context (the `JsonContext.add` implementations). -/
def Ctx.add : Ctx → JSONVALUE → Except Err Ctx
  | .root none, v => .ok (.root (some v))
  | .root (some _), v => .error (unexpectedValue v)
  | .arrCtx s st .INITIAL acc, v => .ok (.arrCtx s st .VALUE (acc ++ [v]))
  | .arrCtx s st .COMMA acc, v => .ok (.arrCtx s st .VALUE (acc ++ [v]))
  | .arrCtx _ _ .VALUE _, v => .error (unexpectedValue v)
  | .objCtx s st .INITIAL acc name, v =>
    match v with
    | .str n =>
      match name with
      | none => .ok (.objCtx s st .NAME acc (some n))
      | some _ => .error (unexpectedValue v)
    | _ => .error (unexpectedValue v)
  | .objCtx s st .COMMA acc name, v =>
    match v with
    | .str n =>
      match name with
      | none => .ok (.objCtx s st .NAME acc (some n))
      | some _ => .error (unexpectedValue v)
    | _ => .error (unexpectedValue v)
  | .objCtx s st .COLON acc name, v =>
    match name with
    | some n => .ok (.objCtx s st .VALUE (jsAssign acc n v) none)
    | none => .error (unexpectedValue v)
  | .objCtx _ _ .NAME _ _, v => .error (unexpectedValue v)
  | .objCtx _ _ .VALUE _ _, v => .error (unexpectedValue v)

/-- Operation `colon` of the active context. -/
def Ctx.colon : Ctx → Except Err Ctx
  | .objCtx s st .NAME acc name => .ok (.objCtx s st .COLON acc name)
  | _ => .error (unexpectedCharacter ":")

/-- Operation `comma` of the active context. -/
def Ctx.comma : Ctx → Except Err Ctx
  | .arrCtx s st .VALUE acc => .ok (.arrCtx s st .COMMA acc)
  | .objCtx s st .VALUE acc name => .ok (.objCtx s st .COMMA acc name)
  | _ => .error (unexpectedCharacter ",")

/-- Operation `closeSquareBracket` of the active context.  For an `ArrayContext` in
a legal state this pops back to the enclosing context, delivering the
completed array (deferred registration, see `Ctx`). -/
def Ctx.closeSquareBracket : Ctx → Except Err Ctx
  | .arrCtx s _ .INITIAL acc => s.add (.arr acc)
  | .arrCtx s _ .VALUE acc => s.add (.arr acc)
  | _ => .error (unexpectedCharacter "]")

/-- Operation `closeCurlyBracket` of the active context. -/
def Ctx.closeCurlyBracket : Ctx → Except Err Ctx
  | .objCtx s _ .INITIAL acc _ => s.add (.obj acc)
  | .objCtx s _ .VALUE acc _ => s.add (.obj acc)
  | _ => .error (unexpectedCharacter "\x7d")

/-- Operation `final` of the active context. -/
def Ctx.final : Ctx → Except Err JSONVALUE
  | .root none => .error ⟨none, "Unexpected end"⟩
  | .root (some v) => .ok v
  | .arrCtx _ start _ _ => .error ⟨some start, "Unmatched `[`"⟩
  | .objCtx _ start _ _ _ => .error ⟨some start, "Unmatched `\x7b`"⟩

/-- Constructor `new ArrayContext(save, start)`: the constructor immediately performs
`save.add(this.value)` with the still-empty array; here the admissibility
of that `add` is checked (its error, if any, is raised now) and the `add`
itself is deferred to the close operation. -/
def mkArrayContext (save : Ctx) (start : Nat) : Except Err Ctx :=
  match save.add (.arr []) with
  | .error e => .error e
  | .ok _ => .ok (.arrCtx save start .INITIAL [])

/-- Constructor `new ObjectContext(save, start)`, same convention as `mkArrayContext`. -/
def mkObjectContext (save : Ctx) (start : Nat) : Except Err Ctx :=
  match save.add (.obj []) with
  | .error e => .error e
  | .ok _ => .ok (.objCtx save start .INITIAL [] none)

/-- The `DEQUOTE` table from the source. -/
def dequoteLookup (c : Char) : Option Char :=
  if c = 'b' then some '\x08'
  else if c = 'f' then some '\x0c'
  else if c = 'n' then some '\n'
  else if c = 'r' then some '\r'
  else if c = 't' then some '\t'
  else if c = '"' then some '"'
  else if c = '/' then some '/'
  else if c = '\\' then some '\\'
  else none

/-- A JS regex line terminator (what `.` does not match). -/
def isLineTerm (c : Char) : Bool :=
  c = '\n' || c = '\r' || c = '\u2028' || c = '\u2029'

/-- Hexadecimal digit test, as `/[^0-9a-fA-F]/` in the source. -/
def isHexDigit (c : Char) : Bool :=
  c.isDigit || ('a' ≤ c && c ≤ 'f') || ('A' ≤ c && c ≤ 'F')

/-- Value of one hexadecimal digit. -/
def hexDigitVal (c : Char) : Nat :=
  if c.isDigit then c.toNat - '0'.toNat
  else if 'a' ≤ c && c ≤ 'f' then c.toNat - 'a'.toNat + 10
  else if 'A' ≤ c && c ≤ 'F' then c.toNat - 'A'.toNat + 10
  else 0

/-- Conversion `String.fromCharCode(parseInt(hex, 16))` for four hex digits.
(For a code in the surrogate range JS makes a lone surrogate, which has no
`Char` counterpart; `Char.ofNat` then yields a default.  No theorem here
depends on that case.) -/
def fromCharCode (a b c d : Char) : Char :=
  Char.ofNat (((hexDigitVal a * 16 + hexDigitVal b) * 16 + hexDigitVal c) * 16 + hexDigitVal d)

/-- The replacement scan inside `dequote`: walks the quote-stripped slice,
resolving each match of `/\\u([\s\S]{0,4})|\\(.)/g`.  The second argument
is the absolute error base for the current position (`start + index`).
A backslash that starts no match (trailing `\`, or `\` before a line
terminator) is left in place, exactly as `replace` leaves unmatched text. -/
def dequoteGo : List Char → Nat → Except Err (List Char)
  | [], _ => .ok []
  | c :: rest, p =>
    if c = '\\' then
      match rest with
      | [] => .ok ['\\']
      | c2 :: rest2 =>
        if c2 = 'u' then
          match rest2 with
          | a :: b :: d :: e :: rest3 =>
            if isHexDigit a && isHexDigit b && isHexDigit d && isHexDigit e then
              match dequoteGo rest3 (p + 6) with
              | .error err => .error err
              | .ok out => .ok (fromCharCode a b d e :: out)
            else
              .error ⟨some p, "Unexpected escape sequence: '\\u" ++ String.mk [a, b, d, e] ++ "'"⟩
          | short =>
            .error ⟨some p, "Unexpected escape sequence: '\\u" ++ String.mk short ++ "'"⟩
        else if isLineTerm c2 then
          match dequoteGo rest2 (p + 2) with
          | .error err => .error err
          | .ok out => .ok ('\\' :: c2 :: out)
        else
          match dequoteLookup c2 with
          | some d =>
            match dequoteGo rest2 (p + 2) with
            | .error err => .error err
            | .ok out => .ok (d :: out)
          | none =>
            .error ⟨some p, "Unexpected escape sequence: '\\" ++ String.mk [c2] ++ "'"⟩
    else
      match dequoteGo rest (p + 1) with
      | .error err => .error err
      | .ok out => .ok (c :: out)

/-- Source `dequote(s, start)`: strips the surrounding quotes
(`s.slice(1, -1)`) and resolves escapes; errors are positioned at
`start + index` where `index` is the match offset inside the slice. -/
def dequote (s : List Char) (start : Nat) : Except Err (List Char) :=
  dequoteGo (s.drop 1).dropLast start

/-- Whether the replacement scan consumes this list completely and
cleanly: every backslash begins a resolved escape — a known
two-character escape, a backslash kept before a line terminator, or a
well-formed four-hex-digit code escape — that ends within the list.
Splitting a token's content immediately before its first illegal escape
yields such a prefix, and the scan of the full content walks the prefix
without looking past it. -/
def cleanPre : List Char → Bool
  | [] => true
  | c :: rest =>
    if c = '\\' then
      match rest with
      | [] => false
      | c2 :: rest2 =>
        if c2 = 'u' then
          match rest2 with
          | a :: b :: d :: e :: rest3 =>
            (isHexDigit a && isHexDigit b && isHexDigit d && isHexDigit e) && cleanPre rest3
          | _ => false
        else if isLineTerm c2 then cleanPre rest2
        else
          match dequoteLookup c2 with
          | some _ => cleanPre rest2
          | none => false
    else cleanPre rest

/-- One token rule of the engine: the rule's pattern as a sticky matcher
(given the remaining input from the current offset, the length it matches
there, if any — JS regexes are deterministic, so this is a function), and
the bound action. -/
structure Rule (σ : Type) where
  pat : List Char → Option Nat
  act : String → σ → Nat → Except Err σ

/-- The compiled alternation `(?<p1>…)|(?<p2>…)|…` evaluated at one
offset: the first rule (in declaration order) whose pattern matches
there wins, together with its match length. -/
def findFirstMatch {σ : Type} : List (Rule σ) → List Char → Option (Nat × Rule σ × Nat)
  | [], _ => none
  | r :: rs, suffix =>
    match r.pat suffix with
    | some n => some (0, r, n)
    | none =>
      match findFirstMatch rs suffix with
      | some (k, r', n) => some (k + 1, r', n)
      | none => none

/-- The scan loop of `Parser.parse`: repeated scanner matches, each
dispatched to its rule's action.  On success returns the final context and
the offset where scanning stopped (`g.lastIndex`); on failure returns the
raised error together with the scanner's current-match offset (`g.index`)
and `g.lastIndex`.  The fuel argument only justifies termination; the
scanner contract (matches at strictly increasing offsets) makes a
zero-length match end the scan, so `length + 1` fuel is always enough. -/
def scanRun {σ : Type} (rules : List (Rule σ)) :
    Nat → List Char → Nat → σ → Except (Err × Option Nat × Nat) (σ × Nat)
  | 0, _, pos, ctx => .ok (ctx, pos)
  | fuel + 1, suffix, pos, ctx =>
    match findFirstMatch rules suffix with
    | none => .ok (ctx, pos)
    | some (_, r, len) =>
      let n := min len suffix.length
      if n = 0 then .ok (ctx, pos)
      else
        match r.act (String.mk (suffix.take n)) ctx pos with
        | .error e => .error (e, some pos, pos + n)
        | .ok ctx' => scanRun rules fuel (suffix.drop n) (pos + n) ctx'

/-- One line of the input as delivered by
`scan(/([^\r\n]*)(?:\r?\n|$)/gy, content)`: the line's start offset, the
offset just past its terminator (`lastIndex`), and its text. -/
def lineRecords : Nat → List Char → Nat → List (Nat × Nat × List Char)
  | 0, _, _ => []
  | fuel + 1, cs, pos =>
    let line := cs.takeWhile fun c => !(c = '\r' || c = '\n')
    let p2 := pos + line.length
    match cs.drop line.length with
    | [] => [(pos, p2, line)]
    | '\r' :: '\n' :: rest => (pos, p2 + 2, line) :: lineRecords fuel rest (p2 + 2)
    | '\n' :: rest => (pos, p2 + 1, line) :: lineRecords fuel rest (p2 + 1)
    | _ => []

/-- Selection loop of `getLineInfo`: the first line whose `lastIndex`
covers the offset, with its 1-based number. -/
def findLineRecord (index : Nat) : Nat → List (Nat × Nat × List Char) → Option (Nat × Nat × List Char)
  | _, [] => none
  | lineNo, (lineIndex, lastIndex, line) :: rest =>
    if index ≤ lastIndex then some (lineNo, index - lineIndex, line)
    else findLineRecord index (lineNo + 1) rest

/-- Source `getLineInfo(content, index)`: 1-based line number,
0-based column, line text.  `none` models the `unreachable()` path (only
hit when the line scan stalls, e.g. on a bare `\r` line terminator). -/
def getLineInfo (cs : List Char) (index : Nat) : Option (Nat × Nat × List Char) :=
  findLineRecord index 1 (lineRecords (cs.length + 1) cs 0)

/-- Resolution `ex.index ?? g.index ?? g.lastIndex`: the engine's precedence for the
diagnostic offset. -/
def resolveIndex (e : Err) (gIndex : Option Nat) (lastIndex : Nat) : Nat :=
  e.index.getD (gIndex.getD lastIndex)

/-- Padding `' '.repeat(n)`. -/
def spaces (n : Nat) : String :=
  String.mk (List.replicate n ' ')

/-- The enriched failure thrown from `Parser.parse`'s catch block: the
original message, `(line: N)` unless the line is the whole input, a colon,
then the source line and a caret, each on its own line indented by two
spaces.  If `getLineInfo` cannot locate the offset the catch block itself
dies with the `unreachable()` error. -/
def renderFailure (cs : List Char) (e : Err) (gIndex : Option Nat) (lastIndex : Nat) : Err :=
  match getLineInfo cs (resolveIndex e gIndex lastIndex) with
  | some (lineNo, columnNo, line) =>
    ⟨none, e.message ++
      (if line.length ≠ cs.length then "(line: " ++ toString lineNo ++ ")" else "") ++
      ":\n  " ++ String.mk line ++ "\n  " ++ spaces columnNo ++ "^"⟩
  | none => ⟨none, "It should be unreachable here."⟩

/-- Source `Parser.parse(content, context)`: run the scan loop; if it stops short
of the end raise "Unrecognized token" there; enrich any caught error with
line/column information and rethrow it as a plain (unindexed) error. -/
def Parser.parse {σ : Type} (rules : List (Rule σ)) (content : String) (ctx : σ) :
    Except Err σ :=
  let cs := content.data
  match scanRun rules (cs.length + 1) cs 0 ctx with
  | .ok (ctx', lastIndex) =>
    if lastIndex < cs.length then
      .error (renderFailure cs ⟨some lastIndex, "Unrecognized token"⟩ none lastIndex)
    else .ok ctx'
  | .error (e, gIndex, lastIndex) => .error (renderFailure cs e gIndex lastIndex)

/-- Literal pattern such as `/null/` in sticky mode: matches exactly the
literal at the current offset. -/
def litMatch : List Char → List Char → Bool
  | [], _ => true
  | l :: ls, u :: us => l = u && litMatch ls us
  | _ :: _, [] => false

/-- Pattern of a literal rule. -/
def litPat (lit : List Char) (suffix : List Char) : Option Nat :=
  if litMatch lit suffix then some lit.length else none

/-- Pattern of a single-character rule such as `/\[/`. -/
def charPat (c : Char) : List Char → Option Nat
  | [] => none
  | u :: _ => if u = c then some 1 else none

/-- Class `\s` of JS regexes (the range U+2000..U+200A written out). -/
def isJsWs (c : Char) : Bool :=
  c = ' ' || c = '\t' || c = '\n' || c = '\u000b' || c = '\u000c' || c = '\r' ||
  c = '\u00a0' || c = '\u1680' ||
  c = '\u2000' || c = '\u2001' || c = '\u2002' || c = '\u2003' || c = '\u2004' ||
  c = '\u2005' || c = '\u2006' || c = '\u2007' || c = '\u2008' || c = '\u2009' ||
  c = '\u200a' ||
  c = '\u2028' || c = '\u2029' || c = '\u202f' || c = '\u205f' ||
  c = '\u3000' || c = '\ufeff'

/-- Pattern of the whitespace rule `/\s+/` (greedy, needs at least one). -/
def wsPat (suffix : List Char) : Option Nat :=
  let n := (suffix.takeWhile isJsWs).length
  if n = 0 then none else some n

/-- Test for `'1' ≤ c ≤ '9'`. -/
def isDigit19 (c : Char) : Bool :=
  '1' ≤ c && c ≤ '9'

/-- Length of the leading decimal-digit run. -/
def digitRun (l : List Char) : Nat :=
  (l.takeWhile Char.isDigit).length

/-- Segment `(?:0|[1-9]\d*)`: length of the integer part, or `none`. -/
def intLen : List Char → Option Nat
  | [] => none
  | c :: rest =>
    if c = '0' then some 1
    else if isDigit19 c then some (1 + digitRun rest)
    else none

/-- Segment `(?:\.\d+)?` (greedy; an unproductive dot backtracks to nothing). -/
def fracLen : List Char → Nat
  | [] => 0
  | c :: rest =>
    if c = '.' then (let d := digitRun rest; if d = 0 then 0 else 1 + d) else 0

/-- Segment `(?:[eE][-+]?\d+)?` (greedy; an unproductive exponent backtracks). -/
def expLen : List Char → Nat
  | c :: rest =>
    if c = 'e' || c = 'E' then
      match rest with
      | c' :: rest' =>
        if c' = '+' || c' = '-' then
          let d := digitRun rest'
          if d = 0 then 0 else 2 + d
        else
          let d := digitRun rest
          if d = 0 then 0 else 1 + d
      | [] => 0
    else 0
  | [] => 0

/-- Tail of the number pattern after the optional sign: integer part,
then the greedy optional fraction and exponent segments. -/
def numTail (l : List Char) : Option Nat :=
  match intLen l with
  | none => none
  | some il =>
    let after := l.drop il
    let fl := fracLen after
    some (il + fl + expLen (after.drop fl))

/-- Pattern of the number rule: `-?(?:0|[1-9]\d*)(?:\.\d+)?(?:[eE][-+]?\d+)?`. -/
def numberPat : List Char → Option Nat
  | [] => none
  | c :: rest =>
    if c = '-' then
      match numTail rest with
      | none => none
      | some n => some (1 + n)
    else numTail (c :: rest)

/-- Consumption after the opening quote of
`/"[^"\\]*(?:\\.[^"\\]*)*"/`: ordinary characters pass, `\` followed by a
non-terminator is consumed as an escape, the first available `"` closes;
anything else (dangling `\`, `\` before a line terminator, end of input)
fails the whole match. -/
def strTail : List Char → Option Nat
  | [] => none
  | c :: rest =>
    if c = '"' then some 1
    else if c = '\\' then
      match rest with
      | [] => none
      | c2 :: rest2 =>
        if isLineTerm c2 then none
        else
          match strTail rest2 with
          | some n => some (n + 2)
          | none => none
    else
      match strTail rest with
      | some n => some (n + 1)
      | none => none

/-- Pattern of the string rule. -/
def stringPat : List Char → Option Nat
  | [] => none
  | c :: rest =>
    if c = '"' then
      match strTail rest with
      | some n => some (n + 1)
      | none => none
    else none

/-- Rule `[/null/, (_, context) => context.add(null)]`. -/
def ruleNull : Rule Ctx := ⟨litPat ['n', 'u', 'l', 'l'], fun _ c _ => c.add .null⟩

/-- Rule `[/true/, (_, context) => context.add(true)]`. -/
def ruleTrue : Rule Ctx := ⟨litPat ['t', 'r', 'u', 'e'], fun _ c _ => c.add (.bool true)⟩

/-- Rule `[/false/, (_, context) => context.add(false)]`. -/
def ruleFalse : Rule Ctx := ⟨litPat ['f', 'a', 'l', 's', 'e'], fun _ c _ => c.add (.bool false)⟩

/-- The number rule: `context.add(+matched)` (the number value is a
function of the matched token, kept as that token here). -/
def ruleNumber : Rule Ctx := ⟨numberPat, fun tok c _ => c.add (.num tok)⟩

/-- The string rule: `context.add(dequote(matched, index))`. -/
def ruleString : Rule Ctx :=
  ⟨stringPat, fun tok c i =>
    match dequote tok.data i with
    | .error e => .error e
    | .ok cs => c.add (.str (String.mk cs))⟩

/-- Rule `[/\[/, (_, context, index) => new ArrayContext(context, index)]`. -/
def ruleOpenArray : Rule Ctx := ⟨charPat '[', fun _ c i => mkArrayContext c i⟩

/-- Rule for `{`. -/
def ruleOpenObject : Rule Ctx := ⟨charPat '{', fun _ c i => mkObjectContext c i⟩

/-- Rule for `]`. -/
def ruleCloseArray : Rule Ctx := ⟨charPat ']', fun _ c _ => c.closeSquareBracket⟩

/-- Rule for `}`. -/
def ruleCloseObject : Rule Ctx := ⟨charPat '}', fun _ c _ => c.closeCurlyBracket⟩

/-- Rule for `,`. -/
def ruleComma : Rule Ctx := ⟨charPat ',', fun _ c _ => c.comma⟩

/-- Rule for `:`. -/
def ruleColon : Rule Ctx := ⟨charPat ':', fun _ c _ => c.colon⟩

/-- Rule `[/\s+/, (_, context) => context]`. -/
def ruleWs : Rule Ctx := ⟨wsPat, fun _ c _ => .ok c⟩

/-- The ordered rule table of `jsonParser`. -/
def jsonRules : List (Rule Ctx) :=
  [ruleNull, ruleTrue, ruleFalse, ruleNumber, ruleString,
   ruleOpenArray, ruleOpenObject, ruleCloseArray, ruleCloseObject,
   ruleComma, ruleColon, ruleWs]

/-- Source `JSON_parse(s)`: run the engine from a fresh `RootContext`, then
`final()` (outside the engine's try/catch). -/
def JSON_parse (s : String) : Except Err JSONVALUE :=
  match Parser.parse jsonRules s (.root none) with
  | .error e => .error e
  | .ok ctx => ctx.final

/-- Whether an `Except` computation succeeded. -/
def exOk {ε α : Type} : Except ε α → Bool
  | .ok _ => true
  | .error _ => false

theorem exOk_ok {ε α : Type} (a : α) : exOk (ε := ε) (.ok a) = true := rfl

theorem exOk_error {ε α : Type} (e : ε) : exOk (α := α) (.error e) = false := rfl

/-- Whether `save.add` accepts an array value does not depend on the
array's contents (only on `save`'s state and on the value being an array,
not a string). -/
theorem add_arr_isOk_congr (save : Ctx) (xs ys : List JSONVALUE) :
    exOk (save.add (.arr xs)) = exOk (save.add (.arr ys)) := by
  cases save with
  | root o => cases o <;> rfl
  | arrCtx s st state acc => cases state <;> rfl
  | objCtx s st state acc name => cases state <;> cases name <;> rfl

/-- The same for object values. -/
theorem add_obj_isOk_congr (save : Ctx) (xs ys : List (String × JSONVALUE)) :
    exOk (save.add (.obj xs)) = exOk (save.add (.obj ys)) := by
  cases save with
  | root o => cases o <;> rfl
  | arrCtx s st state acc => cases state <;> rfl
  | objCtx s st state acc name => cases state <;> cases name <;> rfl

/-- C5: In every reachable `ArrayContext` state (reachability is captured
by the constructor-time registration check `save.add([])` having
succeeded), `add` succeeds exactly in `INITIAL`/`COMMA` and then appends
and moves to `VALUE`; `comma` succeeds exactly in `VALUE` and moves to
`COMMA`; `closeSquareBracket` succeeds exactly in `INITIAL`/`VALUE` and
pops to the enclosing context (delivering the completed array to it);
`colon` and `closeCurlyBracket` always fail. -/
theorem c5_array_context_transitions (save : Ctx) (start : Nat) (st : AState)
    (acc : List JSONVALUE)
    (hreg : exOk (save.add (.arr [])) = true) :
    (∀ v, exOk ((Ctx.arrCtx save start st acc).add v) = true ↔ (st = .INITIAL ∨ st = .COMMA))
  ∧ (∀ v, (st = .INITIAL ∨ st = .COMMA) →
      (Ctx.arrCtx save start st acc).add v = .ok (.arrCtx save start .VALUE (acc ++ [v])))
  ∧ (exOk ((Ctx.arrCtx save start st acc).comma) = true ↔ st = .VALUE)
  ∧ (st = .VALUE → (Ctx.arrCtx save start st acc).comma = .ok (.arrCtx save start .COMMA acc))
  ∧ (exOk ((Ctx.arrCtx save start st acc).closeSquareBracket) = true ↔ (st = .INITIAL ∨ st = .VALUE))
  ∧ ((st = .INITIAL ∨ st = .VALUE) →
      (Ctx.arrCtx save start st acc).closeSquareBracket = save.add (.arr acc))
  ∧ exOk ((Ctx.arrCtx save start st acc).colon) = false
  ∧ exOk ((Ctx.arrCtx save start st acc).closeCurlyBracket) = false := by
  have hacc : exOk (save.add (.arr acc)) = true :=
    (add_arr_isOk_congr save acc []).trans hreg
  and_intros
  · intro v
    cases st <;> simp [Ctx.add, exOk]
  · intro v h
    rcases h with h | h <;> subst h <;> rfl
  · cases st <;> simp [Ctx.comma, exOk]
  · intro h; subst h; rfl
  · cases st with
    | INITIAL => simp [Ctx.closeSquareBracket, hacc]
    | VALUE => simp [Ctx.closeSquareBracket, hacc]
    | COMMA => simp [Ctx.closeSquareBracket, exOk]
  · intro h
    rcases h with h | h <;> subst h <;> rfl
  · cases st <;> rfl
  · cases st <;> rfl

/-- Witness for C5 at a concrete reachable context. -/
theorem c5_array_context_transitions_witness :
    exOk ((Ctx.root none).add (.arr [])) = true
  ∧ (Ctx.arrCtx (.root none) 0 .INITIAL []).add .null
      = .ok (.arrCtx (.root none) 0 .VALUE [.null]) := by
  refine ⟨rfl, ?_⟩
  exact (c5_array_context_transitions (.root none) 0 .INITIAL [] rfl).2.1 .null (Or.inl rfl)

/-- C6: `RootContext.final` fails with "Unexpected end" exactly when no
value was ever added (the root value slot is still empty), otherwise it
returns the held value; and parsing the empty string fails with
"Unexpected end". -/
theorem c6_root_final_unexpected_end :
    Ctx.final (.root none) = .error ⟨none, "Unexpected end"⟩
  ∧ (∀ v, Ctx.final (.root (some v)) = .ok v)
  ∧ JSON_parse "" = .error ⟨none, "Unexpected end"⟩ :=
  ⟨rfl, fun _ => rfl, rfl⟩

/-- C7: parsing "[" fails with an unmatched-`[` error at offset 0, and
parsing "\x7b" fails with an unmatched-`\x7b` error at offset 0 (the
stored offset of the opening bracket). -/
theorem c7_unmatched_bracket_offsets :
    JSON_parse "[" = .error ⟨some 0, "Unmatched `[`"⟩
  ∧ JSON_parse "\x7b" = .error ⟨some 0, "Unmatched `\x7b`"⟩ :=
  ⟨rfl, rfl⟩

/-- One object entry fed through the context protocol exactly as the
token actions do for `"name" : value`. -/
def feedEntry (c : Ctx) (n : String) (v : JSONVALUE) : Except Err Ctx := do
  let c1 ← c.add (.str n)
  let c2 ← c1.colon
  c2.add v

theorem feedEntry_comma (sv : Ctx) (start : Nat) (acc : List (String × JSONVALUE))
    (n : String) (v : JSONVALUE) :
    feedEntry (.objCtx sv start .COMMA acc none) n v
      = .ok (.objCtx sv start .VALUE (jsAssign acc n v) none) := rfl

/-- C10: an error raised by `final()` reaches the caller of `JSON_parse`
unchanged — in particular with no line/caret enrichment — because
`final()` runs only after `Parser.parse` (whose catch block performs the
enrichment) has already returned; concretely, the unmatched-bracket and
empty-input failures surface raw. -/
theorem c10_finalize_errors_unenriched :
    (∀ (s : String) (ctx : Ctx) (e : Err),
      Parser.parse jsonRules s (.root none) = .ok ctx →
      ctx.final = .error e →
      JSON_parse s = .error e)
  ∧ JSON_parse "[\x7b" = .error ⟨some 1, "Unmatched `\x7b`"⟩
  ∧ JSON_parse "[[" = .error ⟨some 1, "Unmatched `[`"⟩ := by
  refine ⟨?_, rfl, rfl⟩
  intro s ctx e hparse hfinal
  unfold JSON_parse
  rw [hparse]
  exact hfinal

/-- Witness for C10: the propagation applied at a concrete parse. -/
theorem c10_finalize_errors_unenriched_witness :
    JSON_parse "\x7b" = .error ⟨some 0, "Unmatched `\x7b`"⟩ :=
  c10_finalize_errors_unenriched.1 "\x7b"
    (.objCtx (.root none) 0 .INITIAL [] none) ⟨some 0, "Unmatched `\x7b`"⟩ rfl rfl

/-- Lemma: `findFirstMatch` returns the first rule, in declaration order, whose
pattern matches at the current offset. -/
theorem ffm_of_first {σ : Type} :
    ∀ (rules : List (Rule σ)) (suffix : List Char) (i : Nat) (ri : Rule σ) (li : Nat),
    rules.get? i = some ri →
    ri.pat suffix = some li →
    (∀ k, k < i → ∀ rk, rules.get? k = some rk → rk.pat suffix = none) →
    findFirstMatch rules suffix = some (i, ri, li) := by
  intro rules
  induction rules with
  | nil => intro suffix i ri li hi; simp [List.get?] at hi
  | cons r rs ih =>
    intro suffix i ri li hi hmi hnone
    cases i with
    | zero =>
      simp [List.get?] at hi
      subst hi
      simp [findFirstMatch, hmi]
    | succ i' =>
      have h0 : r.pat suffix = none := hnone 0 (Nat.succ_pos i') r rfl
      have hi' : rs.get? i' = some ri := hi
      have hnone' : ∀ k, k < i' → ∀ rk, rs.get? k = some rk → rk.pat suffix = none := by
        intro k hk rk hrk
        exact hnone (k + 1) (Nat.succ_lt_succ hk) rk hrk
      have := ih suffix i' ri li hi' hmi hnone'
      simp [findFirstMatch, h0, this]

/-- C1: when several rules' patterns can match at the current offset, the
engine dispatches the action of the rule declared earliest in the rule
list — first-rule-wins, not longest-match (the later rule's match `lj`
may well be longer than `li`). -/
theorem c1_first_rule_wins {σ : Type} (rules : List (Rule σ)) (suffix : List Char)
    (i j : Nat) (ri rj : Rule σ) (li lj : Nat)
    (hij : i < j)
    (hi : rules.get? i = some ri) (hj : rules.get? j = some rj)
    (hmi : ri.pat suffix = some li) (hmj : rj.pat suffix = some lj)
    (hnone : ∀ k, k < i → ∀ rk, rules.get? k = some rk → rk.pat suffix = none)
    (hpos : 0 < li) (hle : li ≤ suffix.length) :
    findFirstMatch rules suffix = some (i, ri, li)
  ∧ ∀ (fuel pos : Nat) (ctx : σ),
      scanRun rules (fuel + 1) suffix pos ctx =
        match ri.act (String.mk (suffix.take li)) ctx pos with
        | .error e => .error (e, some pos, pos + li)
        | .ok ctx' => scanRun rules fuel (suffix.drop li) (pos + li) ctx' := by
  have hffm := ffm_of_first rules suffix i ri li hi hmi hnone
  refine ⟨hffm, ?_⟩
  intro fuel pos ctx
  have hmin : min li suffix.length = li := Nat.min_eq_left hle
  have hne : ¬ (min li suffix.length = 0) := by
    rw [hmin]; exact Nat.pos_iff_ne_zero.mp hpos
  simp only [scanRun, hffm, hmin, hne, if_false]
  rw [if_neg (Nat.pos_iff_ne_zero.mp hpos)]

def c1wRule0 : Rule (List Nat) := ⟨litPat ['a'], fun _ c _ => .ok (0 :: c)⟩

def c1wRule1 : Rule (List Nat) := ⟨litPat ['a', 'b'], fun _ c _ => .ok (1 :: c)⟩

def c1wRules : List (Rule (List Nat)) := [c1wRule0, c1wRule1]

/-- Witness for C1: both rules match at offset 0 (the second with the
longer match), and the engine dispatches the first. -/
theorem c1_first_rule_wins_witness :
    findFirstMatch c1wRules ['a', 'b'] = some (0, c1wRule0, 1)
  ∧ scanRun c1wRules 2 ['a', 'b'] 0 ([] : List Nat) = .ok ([0], 1) := by
  have h := c1_first_rule_wins c1wRules ['a', 'b'] 0 1 c1wRule0 c1wRule1 1 2
    (by decide) rfl rfl rfl rfl
    (fun k hk rk _ => absurd hk (Nat.not_lt_zero k))
    (by decide) (by decide)
  exact ⟨h.1, (h.2 1 0 []).trans rfl⟩

/-- A failing scan always carries the start offset of the match being
processed as the scanner's current-match offset. -/
theorem scanRun_error_gIndex {σ : Type} (rules : List (Rule σ)) :
    ∀ (fuel : Nat) (suffix : List Char) (pos : Nat) (ctx : σ) (e : Err)
      (gIndex : Option Nat) (lastIndex : Nat),
    scanRun rules fuel suffix pos ctx = .error (e, gIndex, lastIndex) →
    ∃ m, gIndex = some m := by
  intro fuel
  induction fuel with
  | zero => intro suffix pos ctx e gIndex lastIndex h; simp [scanRun] at h
  | succ fuel ih =>
    intro suffix pos ctx e gIndex lastIndex h
    rw [scanRun] at h
    cases hffm : findFirstMatch rules suffix with
    | none => rw [hffm] at h; simp at h
    | some val =>
      obtain ⟨k, r, len⟩ := val
      rw [hffm] at h
      simp only at h
      by_cases hn : min len suffix.length = 0
      · rw [if_pos hn] at h; simp at h
      · rw [if_neg hn] at h
        cases hact : r.act (String.mk (suffix.take (min len suffix.length))) ctx pos with
        | error e' =>
          rw [hact] at h
          simp at h
          exact ⟨pos, h.2.1.symm⟩
        | ok ctx' =>
          rw [hact] at h
          exact ih _ _ _ e gIndex lastIndex h

/-- C2: when the parse fails because an action raised an error, the
diagnostic offset is resolved with the precedence: explicit offset on the
error if present, else the start offset of the match being processed
(which the scanner always supplies in this case), else the scanner's
stop offset (end of input). -/
theorem c2_error_offset_precedence {σ : Type} (rules : List (Rule σ)) (content : String)
    (ctx : σ) (e : Err) (gIndex : Option Nat) (lastIndex : Nat)
    (h : scanRun rules (content.data.length + 1) content.data 0 ctx
        = .error (e, gIndex, lastIndex)) :
    Parser.parse rules content ctx = .error (renderFailure content.data e gIndex lastIndex)
  ∧ (∃ m, gIndex = some m)
  ∧ (∀ k, e.index = some k → resolveIndex e gIndex lastIndex = k)
  ∧ (e.index = none → ∀ m, gIndex = some m → resolveIndex e gIndex lastIndex = m)
  ∧ (e.index = none → gIndex = none → resolveIndex e gIndex lastIndex = lastIndex) := by
  refine ⟨?_, scanRun_error_gIndex rules _ _ _ _ _ _ _ h, ?_, ?_, ?_⟩
  · simp only [Parser.parse]
    rw [h]
  · intro k hk; simp [resolveIndex, hk]
  · intro hk m hm; simp [resolveIndex, hk, hm]
  · intro hk hm; simp [resolveIndex, hk, hm]

def c2wRule : Rule Unit := ⟨charPat 'a', fun _ _ _ => .error ⟨none, "boom"⟩⟩

/-- Witness for C2 at a concrete action failure (no explicit offset on
the error, so the current match's start offset 0 is used). -/
theorem c2_error_offset_precedence_witness :
    Parser.parse [c2wRule] "a" ()
      = .error (renderFailure "a".data ⟨none, "boom"⟩ (some 0) 1)
  ∧ resolveIndex ⟨none, "boom"⟩ (some 0) 1 = 0 := by
  have h := c2_error_offset_precedence [c2wRule] "a" () ⟨none, "boom"⟩ (some 0) 1 rfl
  exact ⟨h.1, h.2.2.2.1 rfl 0 rfl⟩

/-- Stepping `dequoteGo` over an ordinary (non-backslash) character. -/
theorem dequoteGo_cons_ne (c : Char) (l : List Char) (p : Nat) (h : c ≠ '\\') :
    dequoteGo (c :: l) p =
      match dequoteGo l (p + 1) with
      | .error err => .error err
      | .ok out => .ok (c :: out) := by
  rw [dequoteGo.eq_def]
  dsimp only
  rw [if_neg h]

/-- An unknown single-character escape fails at the current position. -/
theorem dequoteGo_bad_escape (c : Char) (l : List Char) (p : Nat)
    (hu : c ≠ 'u') (ht : isLineTerm c = false) (hl : dequoteLookup c = none) :
    dequoteGo ('\\' :: c :: l) p =
      .error ⟨some p, "Unexpected escape sequence: '\\" ++ String.mk [c] ++ "'"⟩ := by
  rw [dequoteGo.eq_def]
  dsimp only
  rw [if_pos rfl, if_neg hu, if_neg (by simp [ht]), hl]

/-- A `\u` escape whose four following characters are not all hexadecimal
fails at the current position. -/
theorem dequoteGo_bad_u4 (a b d e : Char) (l : List Char) (p : Nat)
    (hhex : (isHexDigit a && isHexDigit b && isHexDigit d && isHexDigit e) = false) :
    dequoteGo ('\\' :: 'u' :: a :: b :: d :: e :: l) p =
      .error ⟨some p, "Unexpected escape sequence: '\\u" ++ String.mk [a, b, d, e] ++ "'"⟩ := by
  rw [dequoteGo.eq_def]
  dsimp only
  rw [if_pos rfl, if_pos rfl, if_neg (by simp [hhex])]

/-- Unwrapping the quotes around the token before the replacement scan. -/
theorem dequote_eq_go (inner : List Char) (start : Nat) :
    dequote ('"' :: inner ++ ['"']) start = dequoteGo inner start := by
  show dequoteGo ((('"' :: inner ++ ['"']).drop 1).dropLast) start = dequoteGo inner start
  simp only [List.cons_append, List.drop_succ_cons, List.drop_zero, List.dropLast_concat]

/-- C3 counterexample: decoding the string token `"\q"` that starts at
source offset 0 fails at offset 0 — but the escape (its backslash) sits at
offset 1 of the original source, so the reported offset is not the
escape's offset. -/
theorem c3_escape_offset_counterexample :
    dequote ['"', '\\', 'q', '"'] 0
      = .error ⟨some 0, "Unexpected escape sequence: '\\q'"⟩
  ∧ ['"', '\\', 'q', '"'].get? 1 = some '\\'
  ∧ (0 : Nat) ≠ 1 :=
  ⟨rfl, rfl, by decide⟩

/-- The backslash of the failing escape, read off the original token: one
past the position the error reports relative to the token start. -/
theorem quoted_bs_at (pre mid : List Char) :
    ('"' :: (pre ++ '\\' :: mid) ++ ['"']).get? (1 + pre.length) = some '\\' := by
  show (('"' :: (pre ++ '\\' :: mid)) ++ ['"']).get? (1 + pre.length) = some '\\'
  rw [List.get?_append (by simp [List.length_cons]; omega)]
  show (('"' :: pre) ++ '\\' :: mid).get? (1 + pre.length) = some '\\'
  rw [List.get?_append_right (by simp [List.length_cons]; omega)]
  simp only [List.length_cons, show 1 + pre.length - (pre.length + 1) = 0 from by omega]
  rfl

/-- Dropping two known characters keeps a sublist of the original. -/
theorem sublist_of_drop2 (cs rest : List Char) (a b : Char) (n : Nat)
    (h : cs.drop n = a :: b :: rest) : List.Sublist rest cs := by
  have h2 : (cs.drop n).drop 2 = rest := by rw [h]; rfl
  rw [← h2]
  exact (List.drop_sublist 2 (cs.drop n)).trans (List.drop_sublist n cs)

/-- Dropping one known character keeps a sublist of the original. -/
theorem sublist_of_drop1 (cs rest : List Char) (a : Char) (n : Nat)
    (h : cs.drop n = a :: rest) : List.Sublist rest cs := by
  have h2 : (cs.drop n).drop 1 = rest := by rw [h]; rfl
  rw [← h2]
  exact (List.drop_sublist 1 (cs.drop n)).trans (List.drop_sublist n cs)

/-- Every line delivered by the line scan is a sublist of the text it
scans. -/
theorem lineRecords_line_sublist :
    ∀ (fuel : Nat) (cs : List Char) (pos : Nat) (r : Nat × Nat × List Char),
    r ∈ lineRecords fuel cs pos → List.Sublist r.2.2 cs := by
  intro fuel
  induction fuel with
  | zero => intro cs pos r hr; simp [lineRecords] at hr
  | succ fuel ih =>
    intro cs pos r hr
    rw [lineRecords] at hr
    split at hr
    · simp at hr
      rw [hr]
      exact List.takeWhile_sublist _
    · rename_i rest heq
      rcases List.mem_cons.mp hr with hr | hr
      · rw [hr]
        exact List.takeWhile_sublist _
      · exact (ih _ _ r hr).trans (sublist_of_drop2 cs rest '\r' '\n' _ heq)
    · rename_i rest heq
      rcases List.mem_cons.mp hr with hr | hr
      · rw [hr]
        exact List.takeWhile_sublist _
      · exact (ih _ _ r hr).trans (sublist_of_drop1 cs rest '\n' _ heq)
    · simp at hr

/-- The record selected by `findLineRecord` comes from the record list. -/
theorem findLineRecord_mem :
    ∀ (recs : List (Nat × Nat × List Char)) (index n lineNo columnNo : Nat) (line : List Char),
    findLineRecord index n recs = some (lineNo, columnNo, line) →
    ∃ r ∈ recs, r.2.2 = line := by
  intro recs
  induction recs with
  | nil => intro index n lineNo columnNo line h; simp [findLineRecord] at h
  | cons r rest ih =>
    intro index n lineNo columnNo line h
    obtain ⟨li, la, ltext⟩ := r
    rw [findLineRecord] at h
    by_cases hle : index ≤ la
    · rw [if_pos hle] at h
      refine ⟨(li, la, ltext), List.mem_cons_self _ _, ?_⟩
      simp only [Option.some.injEq, Prod.mk.injEq] at h
      exact h.2.2
    · rw [if_neg hle] at h
      obtain ⟨r', hmem, hr'⟩ := ih index (n + 1) lineNo columnNo line h
      exact ⟨r', List.mem_cons_of_mem _ hmem, hr'⟩

/-- The line located by `getLineInfo` is a contiguous piece of the input;
in particular it has the input's length exactly when it is the whole
input. -/
theorem getLineInfo_line_sublist (cs : List Char) (index lineNo columnNo : Nat)
    (line : List Char) (h : getLineInfo cs index = some (lineNo, columnNo, line)) :
    List.Sublist line cs ∧ (line.length = cs.length ↔ line = cs) := by
  obtain ⟨r, hmem, hr⟩ := findLineRecord_mem _ _ _ _ _ _ h
  have hsub : List.Sublist line cs := by
    rw [← hr]; exact lineRecords_line_sublist _ _ _ _ hmem
  refine ⟨hsub, ⟨fun hlen => (List.Sublist.length_eq hsub).mp hlen, fun he => by rw [he]⟩⟩

/-- Characterization of the enriched failure built in the catch block. -/
theorem renderFailure_spec (cs : List Char) (e : Err) (gi : Option Nat) (li : Nat) :
    (renderFailure cs e gi li).index = none
  ∧ ((renderFailure cs e gi li).message = "It should be unreachable here."
     ∨ ∃ (lineNo columnNo : Nat) (line : List Char),
         List.Sublist line cs
       ∧ (line.length = cs.length ↔ line = cs)
       ∧ (renderFailure cs e gi li).message
           = e.message
             ++ (if line.length ≠ cs.length then "(line: " ++ toString lineNo ++ ")" else "")
             ++ ":\n  " ++ String.mk line ++ "\n  " ++ spaces columnNo ++ "^") := by
  unfold renderFailure
  cases hinfo : getLineInfo cs (resolveIndex e gi li) with
  | none => exact ⟨rfl, Or.inl rfl⟩
  | some info =>
    obtain ⟨lineNo, columnNo, line⟩ := info
    obtain ⟨hsub, hiff⟩ := getLineInfo_line_sublist cs _ lineNo columnNo line hinfo
    exact ⟨rfl, Or.inr ⟨lineNo, columnNo, line, hsub, hiff, rfl⟩⟩

/-- C4 amended: every failure the engine itself reports is a plain
(unindexed) error whose message is either the internal `unreachable()`
message (reachable only when the offending line cannot be located, e.g. a
line broken by a bare carriage return), or the description followed by
`(line: N)` — omitted exactly when the failing line is the entire input —
then a colon, a newline, the source line indented by two spaces, a
newline, and a caret indented by two spaces plus the failing column
(aligning it under the failing column of the displayed line). -/
theorem c4_message_format_amended {σ : Type} (rules : List (Rule σ)) (content : String)
    (ctx : σ) (err : Err) (h : Parser.parse rules content ctx = .error err) :
    err.index = none
  ∧ (err.message = "It should be unreachable here."
     ∨ ∃ (desc : String) (lineNo columnNo : Nat) (line : List Char),
         List.Sublist line content.data
       ∧ (line.length = content.data.length ↔ line = content.data)
       ∧ err.message
           = desc
             ++ (if line.length ≠ content.data.length then "(line: " ++ toString lineNo ++ ")" else "")
             ++ ":\n  " ++ String.mk line ++ "\n  " ++ spaces columnNo ++ "^") := by
  have hren : ∀ (e0 : Err) (gi : Option Nat) (li : Nat),
      err = renderFailure content.data e0 gi li →
      err.index = none
    ∧ (err.message = "It should be unreachable here."
       ∨ ∃ (desc : String) (lineNo columnNo : Nat) (line : List Char),
           List.Sublist line content.data
         ∧ (line.length = content.data.length ↔ line = content.data)
         ∧ err.message
             = desc
               ++ (if line.length ≠ content.data.length
                   then "(line: " ++ toString lineNo ++ ")" else "")
               ++ ":\n  " ++ String.mk line ++ "\n  " ++ spaces columnNo ++ "^") := by
    intro e0 gi li herr
    obtain ⟨hidx, hms⟩ := renderFailure_spec content.data e0 gi li
    rw [herr]
    refine ⟨hidx, ?_⟩
    rcases hms with hms | ⟨lineNo, columnNo, line, hsub, hiff, hms⟩
    · exact Or.inl hms
    · exact Or.inr ⟨e0.message, lineNo, columnNo, line, hsub, hiff, hms⟩
  simp only [Parser.parse] at h
  split at h
  · rename_i val ctx' lastIndex
    split at h
    · injection h with h
      exact hren _ _ _ h.symm
    · exact absurd h (by simp)
  · rename_i val e0 gi li
    injection h with h
    exact hren _ _ _ h.symm

/-- Witness for the amended C4 at the concrete failing parse of a `[`
followed by a closing curly bracket. -/
theorem c4_message_format_amended_witness :
    (⟨none, "Unexpected character: `\x7d`:\n  [\x7d\n   ^"⟩ : Err).index = none
  ∧ ((⟨none, "Unexpected character: `\x7d`:\n  [\x7d\n   ^"⟩ : Err).message
        = "It should be unreachable here."
     ∨ ∃ (desc : String) (lineNo columnNo : Nat) (line : List Char),
         List.Sublist line ("[\x7d" : String).data
       ∧ (line.length = ("[\x7d" : String).data.length ↔ line = ("[\x7d" : String).data)
       ∧ (⟨none, "Unexpected character: `\x7d`:\n  [\x7d\n   ^"⟩ : Err).message
           = desc
             ++ (if line.length ≠ ("[\x7d" : String).data.length
                 then "(line: " ++ toString lineNo ++ ")" else "")
             ++ ":\n  " ++ String.mk line ++ "\n  " ++ spaces columnNo ++ "^") :=
  c4_message_format_amended jsonRules "[\x7d" (.root none)
    ⟨none, "Unexpected character: `\x7d`:\n  [\x7d\n   ^"⟩ rfl

/-- C4 counterexample: the failing parse of `[` followed by a closing
curly bracket produces a message with a colon after the description and
two-space margins before the source line and the caret — not the claimed
"description, newline, source line, newline, caret at the failing column"
shape (no description makes that shape fit this message: under the claim
the `(line: n)` part is absent here because the failing line is the whole
input, the source line is `[` `\x7d` and the failing column is 1). -/
theorem c4_message_format_counterexample :
    JSON_parse "[\x7d"
      = .error ⟨none, "Unexpected character: `\x7d`:\n  [\x7d\n   ^"⟩
  ∧ ∀ desc : String,
      "Unexpected character: `\x7d`:\n  [\x7d\n   ^"
        ≠ desc ++ "\n" ++ "[\x7d" ++ "\n" ++ spaces 1 ++ "^" := by
  refine ⟨rfl, ?_⟩
  intro desc h
  have hdata := congrArg String.data h
  have htail : ("\n" ++ "[\x7d" ++ "\n" ++ spaces 1 ++ "^" : String).data
      = ['\n', '[', '\x7d', '\n', ' ', '^'] := rfl
  have hdata2 : ("Unexpected character: `\x7d`:\n  [\x7d\n   ^" : String).data
      = desc.data ++ ['\n', '[', '\x7d', '\n', ' ', '^'] := by
    rw [hdata]
    simp only [String.data_append, List.append_assoc]
    rfl
  have hrev := congrArg List.reverse hdata2
  rw [List.reverse_append] at hrev
  have hleft : (("Unexpected character: `\x7d`:\n  [\x7d\n   ^" : String).data).reverse.get? 2
      = some ' ' := rfl
  rw [hrev] at hleft
  rw [List.get?_append (by decide)] at hleft
  simp at hleft

/-- Kinds of non-whitespace tokens of the JSON grammar, in rule order. -/
inductive TokKind where
  | knull | ktrue | kfalse | knum | kstr
  | kopenA | kopenO | kcloseA | kcloseO | kcomma | kcolon
  deriving DecidableEq, Repr

/-- Index of the kind's rule in `jsonRules`. -/
def kindIdx : TokKind → Nat
  | .knull => 0 | .ktrue => 1 | .kfalse => 2 | .knum => 3 | .kstr => 4
  | .kopenA => 5 | .kopenO => 6 | .kcloseA => 7 | .kcloseO => 8
  | .kcomma => 9 | .kcolon => 10

/-- The kind's rule. -/
def kindRule : TokKind → Rule Ctx
  | .knull => ruleNull | .ktrue => ruleTrue | .kfalse => ruleFalse
  | .knum => ruleNumber | .kstr => ruleString
  | .kopenA => ruleOpenArray | .kopenO => ruleOpenObject
  | .kcloseA => ruleCloseArray | .kcloseO => ruleCloseObject
  | .kcomma => ruleComma | .kcolon => ruleColon

/-- Whether `t` is exactly one standalone token of the given kind (its
rule's pattern matches all of `t`). -/
def tokOk : TokKind → List Char → Bool
  | .knull, t => t == ['n', 'u', 'l', 'l']
  | .ktrue, t => t == ['t', 'r', 'u', 'e']
  | .kfalse, t => t == ['f', 'a', 'l', 's', 'e']
  | .knum, t => numberPat t == some t.length
  | .kstr, t => stringPat t == some t.length
  | .kopenA, t => t == ['[']
  | .kopenO, t => t == ['{']
  | .kcloseA, t => t == [']']
  | .kcloseO, t => t == ['}']
  | .kcomma, t => t == [',']
  | .kcolon, t => t == [':']

/-- Reassembly of an input from leading whitespace and a list of tokens,
each followed by its whitespace gap. -/
def glue : List Char → List (TokKind × List Char × List Char) → List Char
  | w0, [] => w0
  | w0, (_, t, w) :: more => w0 ++ t ++ glue w more

/-- All characters are JS whitespace. -/
def wsAll (w : List Char) : Bool :=
  w.all isJsWs

/-- All gaps of the item list are whitespace. -/
def gapsOk (items : List (TokKind × List Char × List Char)) : Bool :=
  items.all fun x => wsAll x.2.2

/-- All tokens of the item list are standalone tokens of their kinds. -/
def itemsTok (items : List (TokKind × List Char × List Char)) : Bool :=
  items.all fun x => tokOk x.1 x.2.1

/-- The head character cannot extend a number match. -/
def numSafeHead : List Char → Bool
  | [] => true
  | h :: _ => !(h.isDigit || h = '.' || h = 'e' || h = 'E')

/-- After every number token, the next token starts with a character that
cannot extend the number — gap or no gap.  (In a successfully parsed
input this always holds: a number can only be followed by a separator or
a closing bracket.) -/
def succSafe : List (TokKind × List Char × List Char) → Bool
  | [] => true
  | [_] => true
  | (k, _, _) :: (k', t', w') :: more =>
    (if k = .knum then numSafeHead t' else true) && succSafe ((k', t', w') :: more)

/-- The decomposition matches what the scanner would do: whenever a
number token's own gap is empty, the following token must start with a
non-extending character (otherwise the scanner would have merged them, and
the decomposition would not be the input's token decomposition). -/
def boundedB : List (TokKind × List Char × List Char) → Bool
  | [] => true
  | [_] => true
  | (k, _, w) :: (k', t', w') :: more =>
    (if k = .knum && w.isEmpty then numSafeHead t' else true)
      && boundedB ((k', t', w') :: more)

/-- Contexts up to the stored bracket offsets (which never influence
success or parsed values, only the offsets inside unmatched-bracket
errors). -/
def eraseCtx : Ctx → Ctx
  | .root v => .root v
  | .arrCtx s _ st acc => .arrCtx (eraseCtx s) 0 st acc
  | .objCtx s _ st acc nm => .objCtx (eraseCtx s) 0 st acc nm

/-- The action of a token kind, at offset 0 (offsets do not influence the
outcome up to `eraseCtx`). -/
def kAct : TokKind → List Char → Ctx → Except Err Ctx
  | .knull, _, c => c.add .null
  | .ktrue, _, c => c.add (.bool true)
  | .kfalse, _, c => c.add (.bool false)
  | .knum, t, c => c.add (.num (String.mk t))
  | .kstr, t, c =>
    match dequote t 0 with
    | .error e => .error e
    | .ok cs => c.add (.str (String.mk cs))
  | .kopenA, _, c => mkArrayContext c 0
  | .kopenO, _, c => mkObjectContext c 0
  | .kcloseA, _, c => c.closeSquareBracket
  | .kcloseO, _, c => c.closeCurlyBracket
  | .kcomma, _, c => c.comma
  | .kcolon, _, c => c.colon

/-- Folding the token actions over a context, with positions erased and
error details collapsed. -/
def applyC : List (TokKind × List Char × List Char) → Ctx → Except Unit Ctx
  | [], c => .ok c
  | (k, t, _) :: more, c =>
    match kAct k t c with
    | .error _ => .error ()
    | .ok c' => applyC more (eraseCtx c')

/-- Collapse of an action result: positions erased, error details
dropped. -/
def sqE : Except Err Ctx → Except Unit Ctx
  | .error _ => .error ()
  | .ok c => .ok (eraseCtx c)

/-- Collapse of a scan result. -/
def sqRun : Except (Err × Option Nat × Nat) (Ctx × Nat) → Except Unit Ctx
  | .error _ => .error ()
  | .ok (c, _) => .ok (eraseCtx c)

theorem eraseCtx_idem (c : Ctx) : eraseCtx (eraseCtx c) = eraseCtx c := by
  induction c with
  | root v => rfl
  | arrCtx s st state acc ih => simp [eraseCtx, ih]
  | objCtx s st state acc nm ih => simp [eraseCtx, ih]

theorem add_erase (c : Ctx) (v : JSONVALUE) :
    (eraseCtx c).add v = Except.map eraseCtx (c.add v) := by
  cases c with
  | root o => cases o <;> rfl
  | arrCtx s st state acc => cases state <;> rfl
  | objCtx s st state acc name =>
    cases state <;> cases name <;> cases v <;> rfl

theorem colon_erase (c : Ctx) :
    (eraseCtx c).colon = Except.map eraseCtx c.colon := by
  cases c with
  | root o => rfl
  | arrCtx s st state acc => cases state <;> rfl
  | objCtx s st state acc name => cases state <;> rfl

theorem comma_erase (c : Ctx) :
    (eraseCtx c).comma = Except.map eraseCtx c.comma := by
  cases c with
  | root o => rfl
  | arrCtx s st state acc => cases state <;> rfl
  | objCtx s st state acc name => cases state <;> rfl

theorem closeSquare_erase (c : Ctx) :
    (eraseCtx c).closeSquareBracket = Except.map eraseCtx c.closeSquareBracket := by
  cases c with
  | root o => rfl
  | arrCtx s st state acc =>
    cases state <;> simp [Ctx.closeSquareBracket, eraseCtx, add_erase, Except.map]
  | objCtx s st state acc name => cases state <;> rfl

theorem closeCurly_erase (c : Ctx) :
    (eraseCtx c).closeCurlyBracket = Except.map eraseCtx c.closeCurlyBracket := by
  cases c with
  | root o => rfl
  | arrCtx s st state acc => cases state <;> rfl
  | objCtx s st state acc name =>
    cases state <;> simp [Ctx.closeCurlyBracket, eraseCtx, add_erase, Except.map]

theorem mkArray_erase (c : Ctx) (p : Nat) :
    mkArrayContext (eraseCtx c) 0 = Except.map eraseCtx (mkArrayContext c p) := by
  unfold mkArrayContext
  rw [add_erase]
  cases c.add (.arr []) <;> rfl

theorem mkObject_erase (c : Ctx) (p : Nat) :
    mkObjectContext (eraseCtx c) 0 = Except.map eraseCtx (mkObjectContext c p) := by
  unfold mkObjectContext
  rw [add_erase]
  cases c.add (.obj []) <;> rfl

theorem sqE_map_erase (r : Except Err Ctx) :
    sqE (Except.map eraseCtx r) = sqE r := by
  cases r with
  | error e => rfl
  | ok c => simp [Except.map, sqE, eraseCtx_idem]

/-- Stepping over a backslash kept in place before a line terminator. -/
theorem dequoteGo_term (c : Char) (l : List Char) (p : Nat)
    (hu : c ≠ 'u') (ht : isLineTerm c = true) :
    dequoteGo ('\\' :: c :: l) p =
      match dequoteGo l (p + 2) with
      | .error err => .error err
      | .ok out => .ok ('\\' :: c :: out) := by
  rw [dequoteGo.eq_def]
  dsimp only
  rw [if_pos rfl, if_neg hu, if_pos ht]

/-- Stepping over a recognized two-character escape. -/
theorem dequoteGo_esc_ok (c d : Char) (l : List Char) (p : Nat)
    (hu : c ≠ 'u') (ht : isLineTerm c = false) (hl : dequoteLookup c = some d) :
    dequoteGo ('\\' :: c :: l) p =
      match dequoteGo l (p + 2) with
      | .error err => .error err
      | .ok out => .ok (d :: out) := by
  rw [dequoteGo.eq_def]
  dsimp only
  rw [if_pos rfl, if_neg hu, if_neg (by simp [ht]), hl]

/-- Stepping over a well-formed `\uXXXX` escape. -/
theorem dequoteGo_u4_ok (a b d e : Char) (l : List Char) (p : Nat)
    (hhex : (isHexDigit a && isHexDigit b && isHexDigit d && isHexDigit e) = true) :
    dequoteGo ('\\' :: 'u' :: a :: b :: d :: e :: l) p =
      match dequoteGo l (p + 6) with
      | .error err => .error err
      | .ok out => .ok (fromCharCode a b d e :: out) := by
  rw [dequoteGo.eq_def]
  dsimp only
  rw [if_pos rfl, if_pos rfl, if_pos hhex]

/-- A `\u` escape with fewer than four characters left in the content
fails at the current position, quoting whatever followed. -/
theorem dequoteGo_bad_u_short (short : List Char) (p : Nat) (hlen : short.length < 4) :
    dequoteGo ('\\' :: 'u' :: short) p =
      .error ⟨some p, "Unexpected escape sequence: '\\u" ++ String.mk short ++ "'"⟩ := by
  rcases short with _ | ⟨a, _ | ⟨b, _ | ⟨d, _ | ⟨e, rest⟩⟩⟩⟩
  · rfl
  · rfl
  · rfl
  · rfl
  · simp only [List.length_cons] at hlen
    omega

/-- Stepping over a clean prefix, for non-backslash characters. -/
theorem cleanPre_cons_ne (c : Char) (l : List Char) (h : c ≠ '\\') :
    cleanPre (c :: l) = cleanPre l := by
  rw [cleanPre.eq_def]
  dsimp only
  rw [if_neg h]

/-- Stepping over a clean prefix, for a well-formed code escape. -/
theorem cleanPre_u4 (a b d e : Char) (l : List Char) :
    cleanPre ('\\' :: 'u' :: a :: b :: d :: e :: l)
      = ((isHexDigit a && isHexDigit b && isHexDigit d && isHexDigit e) && cleanPre l) := by
  rw [cleanPre.eq_def]
  dsimp only
  rw [if_pos rfl, if_pos rfl]

/-- Stepping over a clean prefix, for a kept backslash before a line
terminator. -/
theorem cleanPre_term (c : Char) (l : List Char) (hu : c ≠ 'u') (ht : isLineTerm c = true) :
    cleanPre ('\\' :: c :: l) = cleanPre l := by
  rw [cleanPre.eq_def]
  dsimp only
  rw [if_pos rfl, if_neg hu, if_pos ht]

/-- Stepping over a clean prefix, for a two-character escape: clean
exactly when the table knows the character and the rest is clean. -/
theorem cleanPre_esc (c : Char) (l : List Char) (hu : c ≠ 'u') (ht : isLineTerm c = false) :
    cleanPre ('\\' :: c :: l)
      = match dequoteLookup c with
        | some _ => cleanPre l
        | none => false := by
  rw [cleanPre.eq_def]
  dsimp only
  rw [if_pos rfl, if_neg hu, if_neg (by simp [ht])]

/-- The scan of a clean prefix followed by anything consumes the prefix
without error; a failure of the scan on the remainder, positioned past
the prefix, is then the failure of the whole scan. -/
theorem dequoteGo_clean_err :
    ∀ (n : Nat) (pre : List Char), pre.length ≤ n → cleanPre pre = true →
    ∀ (tail : List Char) (p : Nat) (er : Err),
    dequoteGo tail (p + pre.length) = .error er →
    dequoteGo (pre ++ tail) p = .error er := by
  intro n
  induction n with
  | zero =>
    intro pre hl _ tail p er htail
    have hnil : pre = [] := List.length_eq_zero.mp (Nat.le_zero.mp hl)
    subst hnil
    simpa using htail
  | succ n ih =>
    intro pre hl hclean tail p er htail
    cases pre with
    | nil => simpa using htail
    | cons c rest =>
      by_cases hc : c = '\\'
      · subst hc
        cases rest with
        | nil => exact absurd hclean (by decide)
        | cons c2 rest2 =>
          by_cases hu : c2 = 'u'
          · subst hu
            rcases rest2 with _ | ⟨a, _ | ⟨b, _ | ⟨d, _ | ⟨e, rest3⟩⟩⟩⟩
            · exact absurd hclean (by decide)
            · rw [show cleanPre ['\\', 'u', a] = false from rfl] at hclean
              cases hclean
            · rw [show cleanPre ['\\', 'u', a, b] = false from rfl] at hclean
              cases hclean
            · rw [show cleanPre ['\\', 'u', a, b, d] = false from rfl] at hclean
              cases hclean
            · rw [cleanPre_u4] at hclean
              rw [Bool.and_eq_true] at hclean
              obtain ⟨hhex, hcl⟩ := hclean
              have hlen : rest3.length ≤ n := by
                simp [List.length_cons] at hl; omega
              have harith : p + 6 + rest3.length
                  = p + ('\\' :: 'u' :: a :: b :: d :: e :: rest3).length := by
                simp [List.length_cons]; omega
              have hrec := ih rest3 hlen hcl tail (p + 6) er (by rw [harith]; exact htail)
              show dequoteGo ('\\' :: 'u' :: a :: b :: d :: e :: (rest3 ++ tail)) p = .error er
              rw [dequoteGo_u4_ok a b d e (rest3 ++ tail) p hhex, hrec]
          · by_cases ht : isLineTerm c2 = true
            · rw [cleanPre_term c2 rest2 hu ht] at hclean
              have hlen : rest2.length ≤ n := by
                simp [List.length_cons] at hl; omega
              have harith : p + 2 + rest2.length = p + ('\\' :: c2 :: rest2).length := by
                simp [List.length_cons]; omega
              have hrec := ih rest2 hlen hclean tail (p + 2) er (by rw [harith]; exact htail)
              show dequoteGo ('\\' :: c2 :: (rest2 ++ tail)) p = .error er
              rw [dequoteGo_term c2 (rest2 ++ tail) p hu ht, hrec]
            · have ht2 : isLineTerm c2 = false := Bool.eq_false_iff.mpr ht
              rw [cleanPre_esc c2 rest2 hu ht2] at hclean
              cases hlk : dequoteLookup c2 with
              | none => rw [hlk] at hclean; cases hclean
              | some d =>
                rw [hlk] at hclean
                have hlen : rest2.length ≤ n := by
                  simp [List.length_cons] at hl; omega
                have harith : p + 2 + rest2.length = p + ('\\' :: c2 :: rest2).length := by
                  simp [List.length_cons]; omega
                have hrec := ih rest2 hlen hclean tail (p + 2) er (by rw [harith]; exact htail)
                show dequoteGo ('\\' :: c2 :: (rest2 ++ tail)) p = .error er
                rw [dequoteGo_esc_ok c2 d (rest2 ++ tail) p hu ht2 hlk, hrec]
      · rw [cleanPre_cons_ne c rest hc] at hclean
        have hlen : rest.length ≤ n := by
          simp [List.length_cons] at hl; omega
        have harith : p + 1 + rest.length = p + (c :: rest).length := by
          simp [List.length_cons]; omega
        have hrec := ih rest hlen hclean tail (p + 1) er (by rw [harith]; exact htail)
        show dequoteGo (c :: (rest ++ tail)) p = .error er
        rw [dequoteGo_cons_ne c (rest ++ tail) p hc, hrec]

/-- C3 amended: decoding a string token whose content is a cleanly
decodable prefix followed by an illegal escape fails with an "Unexpected
escape sequence" error whose offset is the token's start offset plus the
escape's index inside the quote-stripped content — one less than the
escape's offset in the original source (the stripped opening quote is not
accounted for).  The prefix may itself contain legal escapes; the illegal
escape is an unknown single-character escape, a code escape whose four
following characters are not all hexadecimal, or a code escape with fewer
than four characters left before the closing quote. -/
theorem c3_escape_offset_amended :
    (∀ (pre rest : List Char) (c : Char) (start : Nat),
      cleanPre pre = true → c ≠ 'u' → isLineTerm c = false → dequoteLookup c = none →
      dequote ('"' :: (pre ++ '\\' :: c :: rest) ++ ['"']) start
        = .error ⟨some (start + pre.length),
            "Unexpected escape sequence: '\\" ++ String.mk [c] ++ "'"⟩
      ∧ ('"' :: (pre ++ '\\' :: c :: rest) ++ ['"']).get? (1 + pre.length) = some '\\')
  ∧ (∀ (pre rest : List Char) (a b d e : Char) (start : Nat),
      cleanPre pre = true →
      (isHexDigit a && isHexDigit b && isHexDigit d && isHexDigit e) = false →
      dequote ('"' :: (pre ++ '\\' :: 'u' :: a :: b :: d :: e :: rest) ++ ['"']) start
        = .error ⟨some (start + pre.length),
            "Unexpected escape sequence: '\\u" ++ String.mk [a, b, d, e] ++ "'"⟩
      ∧ ('"' :: (pre ++ '\\' :: 'u' :: a :: b :: d :: e :: rest) ++ ['"']).get? (1 + pre.length)
          = some '\\')
  ∧ (∀ (pre short : List Char) (start : Nat),
      cleanPre pre = true → short.length < 4 →
      dequote ('"' :: (pre ++ '\\' :: 'u' :: short) ++ ['"']) start
        = .error ⟨some (start + pre.length),
            "Unexpected escape sequence: '\\u" ++ String.mk short ++ "'"⟩
      ∧ ('"' :: (pre ++ '\\' :: 'u' :: short) ++ ['"']).get? (1 + pre.length) = some '\\') := by
  refine ⟨?_, ?_, ?_⟩
  · intro pre rest c start hpre hu ht hl
    refine ⟨?_, quoted_bs_at pre (c :: rest)⟩
    rw [dequote_eq_go]
    exact dequoteGo_clean_err pre.length pre (Nat.le_refl _) hpre ('\\' :: c :: rest) start _
      (dequoteGo_bad_escape c rest (start + pre.length) hu ht hl)
  · intro pre rest a b d e start hpre hhex
    refine ⟨?_, quoted_bs_at pre ('u' :: a :: b :: d :: e :: rest)⟩
    rw [dequote_eq_go]
    exact dequoteGo_clean_err pre.length pre (Nat.le_refl _) hpre
      ('\\' :: 'u' :: a :: b :: d :: e :: rest) start _
      (dequoteGo_bad_u4 a b d e rest (start + pre.length) hhex)
  · intro pre short start hpre hlen
    refine ⟨?_, quoted_bs_at pre ('u' :: short)⟩
    rw [dequote_eq_go]
    exact dequoteGo_clean_err pre.length pre (Nat.le_refl _) hpre
      ('\\' :: 'u' :: short) start _
      (dequoteGo_bad_u_short short (start + pre.length) hlen)

/-- Witness for the amended C3 at concrete tokens, one per illegal-escape
family; the first two have a legal escape before the failing one. -/
theorem c3_escape_offset_amended_witness :
    dequote ['"', '\\', 'n', '\\', 'q', '"'] 5
      = .error ⟨some 7, "Unexpected escape sequence: '\\q'"⟩
  ∧ dequote ['"', '\\', 'u', '0', '0', '4', '1', '\\', 'u', 'Z', 'Z', 'Z', 'Z', '"'] 0
      = .error ⟨some 6, "Unexpected escape sequence: '\\uZZZZ'"⟩
  ∧ dequote ['"', '\\', 'u', '3', '0', '4', '"'] 0
      = .error ⟨some 0, "Unexpected escape sequence: '\\u304'"⟩ := by
  refine ⟨?_, ?_, ?_⟩
  · exact ((c3_escape_offset_amended.1 ['\\', 'n'] [] 'q' 5 (by decide) (by decide)
      (by decide) rfl).1).trans (by rfl)
  · exact ((c3_escape_offset_amended.2.1 ['\\', 'u', '0', '0', '4', '1'] [] 'Z' 'Z' 'Z' 'Z' 0
      (by decide) (by decide)).1).trans (by rfl)
  · exact ((c3_escape_offset_amended.2.2 [] ['3', '0', '4'] 0 (by decide)
      (by decide)).1).trans (by rfl)

/-- The replacement scan's success and its decoded value do not depend on
the error base offset; only error offsets do. -/
theorem dequoteGo_shift :
    ∀ (n : Nat) (l : List Char), l.length ≤ n → ∀ (p q : Nat),
    (∀ v, dequoteGo l p = .ok v → dequoteGo l q = .ok v)
  ∧ (∀ e, dequoteGo l p = .error e → ∃ e', dequoteGo l q = .error e') := by
  intro n
  induction n with
  | zero =>
    intro l hl p q
    have hnil : l = [] := List.length_eq_zero.mp (Nat.le_zero.mp hl)
    subst hnil
    exact ⟨fun v hv => hv, fun e he => by simp [dequoteGo] at he⟩
  | succ n ih =>
    intro l hl p q
    cases l with
    | nil => exact ⟨fun v hv => hv, fun e he => by simp [dequoteGo] at he⟩
    | cons c rest =>
      by_cases hc : c = '\\'
      · subst hc
        cases rest with
        | nil => exact ⟨fun v hv => hv, fun e he => by simp [dequoteGo] at he⟩
        | cons c2 rest2 =>
          by_cases hu : c2 = 'u'
          · subst hu
            rcases rest2 with _ | ⟨a, _ | ⟨b, _ | ⟨d, _ | ⟨e, rest3⟩⟩⟩⟩
            · refine ⟨fun v hv => ?_, fun er _ => ⟨_, rfl⟩⟩
              rw [show dequoteGo ['\\', 'u'] p
                  = .error ⟨some p, "Unexpected escape sequence: '\\u'"⟩ from rfl] at hv
              simp at hv
            · refine ⟨fun v hv => ?_, fun er _ => ⟨_, rfl⟩⟩
              rw [show dequoteGo ['\\', 'u', a] p
                  = .error ⟨some p, "Unexpected escape sequence: '\\u" ++ String.mk [a] ++ "'"⟩
                  from rfl] at hv
              simp at hv
            · refine ⟨fun v hv => ?_, fun er _ => ⟨_, rfl⟩⟩
              rw [show dequoteGo ['\\', 'u', a, b] p
                  = .error ⟨some p, "Unexpected escape sequence: '\\u" ++ String.mk [a, b] ++ "'"⟩
                  from rfl] at hv
              simp at hv
            · refine ⟨fun v hv => ?_, fun er _ => ⟨_, rfl⟩⟩
              rw [show dequoteGo ['\\', 'u', a, b, d] p
                  = .error ⟨some p, "Unexpected escape sequence: '\\u" ++ String.mk [a, b, d] ++ "'"⟩
                  from rfl] at hv
              simp at hv
            · by_cases hhex : (isHexDigit a && isHexDigit b && isHexDigit d && isHexDigit e) = true
              · have hlen : rest3.length ≤ n := by
                  simp [List.length_cons] at hl; omega
                obtain ⟨ihok, iherr⟩ := ih rest3 hlen (p + 6) (q + 6)
                rw [dequoteGo_u4_ok a b d e rest3 p hhex, dequoteGo_u4_ok a b d e rest3 q hhex]
                constructor
                · intro v hv
                  cases hrec : dequoteGo rest3 (p + 6) with
                  | error er => rw [hrec] at hv; cases hv
                  | ok out =>
                    rw [hrec] at hv
                    rw [ihok out hrec]
                    exact hv
                · intro er he
                  cases hrec : dequoteGo rest3 (p + 6) with
                  | error er2 =>
                    obtain ⟨er3, her3⟩ := iherr er2 hrec
                    rw [her3]
                    exact ⟨er3, rfl⟩
                  | ok out => rw [hrec] at he; cases he
              · have hhex2 : (isHexDigit a && isHexDigit b && isHexDigit d && isHexDigit e) = false :=
                  Bool.eq_false_iff.mpr hhex
                rw [dequoteGo_bad_u4 a b d e rest3 p hhex2, dequoteGo_bad_u4 a b d e rest3 q hhex2]
                exact ⟨fun v hv => by simp at hv, fun er _ => ⟨_, rfl⟩⟩
          · by_cases ht : isLineTerm c2 = true
            · have hlen : rest2.length ≤ n := by
                simp [List.length_cons] at hl; omega
              obtain ⟨ihok, iherr⟩ := ih rest2 hlen (p + 2) (q + 2)
              rw [dequoteGo_term c2 rest2 p hu ht, dequoteGo_term c2 rest2 q hu ht]
              constructor
              · intro v hv
                cases hrec : dequoteGo rest2 (p + 2) with
                | error er => rw [hrec] at hv; cases hv
                | ok out => rw [hrec] at hv; rw [ihok out hrec]; exact hv
              · intro er he
                cases hrec : dequoteGo rest2 (p + 2) with
                | error er2 =>
                  obtain ⟨er3, her3⟩ := iherr er2 hrec
                  rw [her3]
                  exact ⟨er3, rfl⟩
                | ok out => rw [hrec] at he; cases he
            · have ht2 : isLineTerm c2 = false := Bool.eq_false_iff.mpr ht
              cases hlk : dequoteLookup c2 with
              | some d =>
                have hlen : rest2.length ≤ n := by
                  simp [List.length_cons] at hl; omega
                obtain ⟨ihok, iherr⟩ := ih rest2 hlen (p + 2) (q + 2)
                rw [dequoteGo_esc_ok c2 d rest2 p hu ht2 hlk, dequoteGo_esc_ok c2 d rest2 q hu ht2 hlk]
                constructor
                · intro v hv
                  cases hrec : dequoteGo rest2 (p + 2) with
                  | error er => rw [hrec] at hv; cases hv
                  | ok out => rw [hrec] at hv; rw [ihok out hrec]; exact hv
                · intro er he
                  cases hrec : dequoteGo rest2 (p + 2) with
                  | error er2 =>
                    obtain ⟨er3, her3⟩ := iherr er2 hrec
                    rw [her3]
                    exact ⟨er3, rfl⟩
                  | ok out => rw [hrec] at he; cases he
              | none =>
                rw [dequoteGo_bad_escape c2 rest2 p hu ht2 hlk,
                  dequoteGo_bad_escape c2 rest2 q hu ht2 hlk]
                exact ⟨fun v hv => by simp at hv, fun er _ => ⟨_, rfl⟩⟩
      · have hlen : rest.length ≤ n := by
          simp [List.length_cons] at hl; omega
        obtain ⟨ihok, iherr⟩ := ih rest hlen (p + 1) (q + 1)
        rw [dequoteGo_cons_ne c rest p hc, dequoteGo_cons_ne c rest q hc]
        constructor
        · intro v hv
          cases hrec : dequoteGo rest (p + 1) with
          | error er => rw [hrec] at hv; cases hv
          | ok out => rw [hrec] at hv; rw [ihok out hrec]; exact hv
        · intro er he
          cases hrec : dequoteGo rest (p + 1) with
          | error er2 =>
            obtain ⟨er3, her3⟩ := iherr er2 hrec
            rw [her3]
            exact ⟨er3, rfl⟩
          | ok out => rw [hrec] at he; cases he

/-- Offset-independence of `dequote`'s success and value. -/
theorem dequote_shift_ok (t : List Char) (p q : Nat) (v : List Char)
    (h : dequote t p = .ok v) : dequote t q = .ok v :=
  (dequoteGo_shift ((t.drop 1).dropLast).length _ (Nat.le_refl _) p q).1 v h

/-- Offset-independence of `dequote`'s failure. -/
theorem dequote_shift_err (t : List Char) (p q : Nat) (e : Err)
    (h : dequote t p = .error e) : ∃ e', dequote t q = .error e' :=
  (dequoteGo_shift ((t.drop 1).dropLast).length _ (Nat.le_refl _) p q).2 e h

/-- A rule's action at any offset agrees, up to erased offsets and
collapsed error details, with the kind's action at offset 0 on the erased
context. -/
theorem act_kAct (k : TokKind) (t : List Char) (c : Ctx) (p : Nat) :
    sqE ((kindRule k).act (String.mk t) c p) = sqE (kAct k t (eraseCtx c)) := by
  cases k with
  | knull => show sqE (c.add .null) = sqE ((eraseCtx c).add .null)
             rw [add_erase, sqE_map_erase]
  | ktrue => show sqE (c.add (.bool true)) = sqE ((eraseCtx c).add (.bool true))
             rw [add_erase, sqE_map_erase]
  | kfalse => show sqE (c.add (.bool false)) = sqE ((eraseCtx c).add (.bool false))
              rw [add_erase, sqE_map_erase]
  | knum => show sqE (c.add (.num (String.mk t))) = sqE ((eraseCtx c).add (.num (String.mk t)))
            rw [add_erase, sqE_map_erase]
  | kstr =>
    show sqE (match dequote (String.mk t).data p with
      | .error e => .error e
      | .ok cs => c.add (.str (String.mk cs)))
      = sqE (match dequote t 0 with
      | .error e => .error e
      | .ok cs => (eraseCtx c).add (.str (String.mk cs)))
    have hdata : (String.mk t).data = t := rfl
    rw [hdata]
    cases hdq : dequote t p with
    | error e =>
      obtain ⟨e', he'⟩ := dequote_shift_err t p 0 e hdq
      rw [he']
      rfl
    | ok cs =>
      rw [dequote_shift_ok t p 0 cs hdq]
      show sqE (c.add (.str (String.mk cs))) = sqE ((eraseCtx c).add (.str (String.mk cs)))
      rw [add_erase, sqE_map_erase]
  | kopenA =>
    show sqE (mkArrayContext c p) = sqE (mkArrayContext (eraseCtx c) 0)
    rw [mkArray_erase c p, sqE_map_erase]
  | kopenO =>
    show sqE (mkObjectContext c p) = sqE (mkObjectContext (eraseCtx c) 0)
    rw [mkObject_erase c p, sqE_map_erase]
  | kcloseA =>
    show sqE c.closeSquareBracket = sqE (eraseCtx c).closeSquareBracket
    rw [closeSquare_erase, sqE_map_erase]
  | kcloseO =>
    show sqE c.closeCurlyBracket = sqE (eraseCtx c).closeCurlyBracket
    rw [closeCurly_erase, sqE_map_erase]
  | kcomma =>
    show sqE c.comma = sqE (eraseCtx c).comma
    rw [comma_erase, sqE_map_erase]
  | kcolon =>
    show sqE c.colon = sqE (eraseCtx c).colon
    rw [colon_erase, sqE_map_erase]

/-- A whitespace character starts no other rule's pattern and cannot
extend a number. -/
theorem isJsWs_spec (h : Char) (hw : isJsWs h = true) :
    h ≠ 'n' ∧ h ≠ 't' ∧ h ≠ 'f' ∧ h ≠ '-' ∧ h ≠ '0' ∧ isDigit19 h = false
  ∧ h ≠ '"' ∧ h ≠ '[' ∧ h ≠ '{' ∧ h ≠ ']' ∧ h ≠ '}' ∧ h ≠ ',' ∧ h ≠ ':'
  ∧ h.isDigit = false ∧ h ≠ '.' ∧ h ≠ 'e' ∧ h ≠ 'E' := by
  simp only [isJsWs, Bool.or_eq_true, decide_eq_true_eq, or_assoc] at hw
  rcases hw with h1|h1|h1|h1|h1|h1|h1|h1|h1|h1|h1|h1|h1|h1|h1|h1|h1|h1|h1|h1|h1|h1|h1|h1|h1 <;>
    subst h1 <;> decide

theorem litMatch_append (lit r : List Char) : litMatch lit (lit ++ r) = true := by
  induction lit with
  | nil => rfl
  | cons c rest ih => simp [litMatch, ih]

/-- A literal rule rematches its own token whatever follows. -/
theorem litPat_self (lit r : List Char) : litPat lit (lit ++ r) = some lit.length := by
  simp [litPat, litMatch_append]

theorem litPat_cons_none (a : Char) (lit : List Char) (h : Char) (tail : List Char)
    (hne : h ≠ a) : litPat (a :: lit) (h :: tail) = none := by
  simp [litPat, litMatch, Ne.symm hne]

theorem charPat_self (c : Char) (r : List Char) : charPat c (c :: r) = some 1 := by
  simp [charPat]

theorem charPat_cons_none (c h : Char) (tail : List Char) (hne : h ≠ c) :
    charPat c (h :: tail) = none := by
  simp [charPat, hne]

theorem stringPat_cons_none (h : Char) (tail : List Char) (hne : h ≠ '"') :
    stringPat (h :: tail) = none := by
  simp [stringPat, hne]

theorem numberPat_cons_none (h : Char) (tail : List Char)
    (h1 : h ≠ '-') (h2 : h ≠ '0') (h3 : isDigit19 h = false) :
    numberPat (h :: tail) = none := by
  simp [numberPat, numTail, intLen, h1, h2, h3]

theorem wsPat_cons_none (h : Char) (tail : List Char) (hh : isJsWs h = false) :
    wsPat (h :: tail) = none := by
  simp [wsPat, List.takeWhile_cons, hh]

/-- Head of a token matched by the number pattern. -/
theorem numberPat_head (t : List Char) (n : Nat) (h : numberPat t = some n) :
    ∃ h0 tail, t = h0 :: tail ∧ (h0 = '-' ∨ h0 = '0' ∨ isDigit19 h0 = true) := by
  cases t with
  | nil => simp [numberPat] at h
  | cons c rest =>
    refine ⟨c, rest, rfl, ?_⟩
    by_cases hc : c = '-'
    · exact Or.inl hc
    · by_cases h0 : c = '0'
      · exact Or.inr (Or.inl h0)
      · by_cases h19 : isDigit19 c = true
        · exact Or.inr (Or.inr h19)
        · exfalso
          rw [numberPat_cons_none c rest hc h0 (Bool.eq_false_iff.mpr h19)] at h
          cases h

/-- Head of a token matched by the string pattern. -/
theorem stringPat_head (t : List Char) (n : Nat) (h : stringPat t = some n) :
    ∃ tail, t = '"' :: tail := by
  cases t with
  | nil => simp [stringPat] at h
  | cons c rest =>
    by_cases hc : c = '"'
    · exact ⟨rest, by rw [hc]⟩
    · rw [stringPat_cons_none c rest hc] at h; cases h

theorem digitRun_le (l : List Char) : digitRun l ≤ l.length :=
  (List.takeWhile_sublist _).length_le

theorem digitRun_cons_false (h : Char) (r : List Char) (hd : h.isDigit = false) :
    digitRun (h :: r) = 0 := by
  simp [digitRun, List.takeWhile_cons, hd]

theorem digitRun_append (l r : List Char) :
    digitRun (l ++ r) = if digitRun l = l.length then l.length + digitRun r else digitRun l := by
  induction l with
  | nil => simp [digitRun]
  | cons c rest ih =>
    by_cases hc : c.isDigit
    · have h1 : digitRun (c :: (rest ++ r)) = 1 + digitRun (rest ++ r) := by
        simp [digitRun, List.takeWhile_cons, hc, Nat.add_comm]
      have h2 : digitRun (c :: rest) = 1 + digitRun rest := by
        simp [digitRun, List.takeWhile_cons, hc, Nat.add_comm]
      show digitRun (c :: (rest ++ r)) = _
      rw [h1, ih, h2]
      by_cases hfull : digitRun rest = rest.length
      · rw [if_pos hfull, if_pos (show 1 + digitRun rest = (c :: rest).length by
          rw [hfull, List.length_cons]; omega)]
        rw [List.length_cons]
        omega
      · rw [if_neg hfull, if_neg (show ¬ 1 + digitRun rest = (c :: rest).length by
          rw [List.length_cons]; omega)]
    · have hc' : c.isDigit = false := Bool.eq_false_iff.mpr hc
      show digitRun (c :: (rest ++ r)) = _
      rw [digitRun_cons_false c _ hc', digitRun_cons_false c rest hc']
      rw [if_neg (by simp [List.length_cons])]

theorem intLen_le (l : List Char) (il : Nat) (h : intLen l = some il) : il ≤ l.length := by
  cases l with
  | nil => simp [intLen] at h
  | cons c rest =>
    rw [intLen] at h
    by_cases h0 : c = '0'
    · rw [if_pos h0] at h
      injection h with h
      simp [← h, List.length_cons]
    · rw [if_neg h0] at h
      by_cases h19 : isDigit19 c
      · rw [if_pos h19] at h
        injection h with h
        have := digitRun_le rest
        simp [← h, List.length_cons]
        omega
      · rw [if_neg h19] at h; cases h

theorem intLen_append_stable (l : List Char) (il : Nat) (h0 : Char) (r : List Char)
    (hd : h0.isDigit = false) (h : intLen l = some il) :
    intLen (l ++ h0 :: r) = some il := by
  cases l with
  | nil => simp [intLen] at h
  | cons c rest =>
    rw [intLen] at h
    show intLen (c :: (rest ++ h0 :: r)) = some il
    rw [intLen]
    by_cases hc : c = '0'
    · rw [if_pos hc] at h ⊢; exact h
    · rw [if_neg hc] at h ⊢
      by_cases h19 : isDigit19 c
      · rw [if_pos h19] at h ⊢
        rw [digitRun_append rest (h0 :: r), digitRun_cons_false h0 r hd]
        by_cases hfull : digitRun rest = rest.length
        · rw [if_pos hfull]
          rw [← hfull]
          simpa using h
        · rw [if_neg hfull]; exact h
      · rw [if_neg h19] at h; cases h

theorem fracLen_le (l : List Char) : fracLen l ≤ l.length := by
  cases l with
  | nil => simp [fracLen]
  | cons c rest =>
    rw [fracLen]
    by_cases hc : c = '.'
    · rw [if_pos hc]
      have := digitRun_le rest
      by_cases hz : digitRun rest = 0
      · simp [hz, List.length_cons]
      · simp [hz, List.length_cons]
        omega
    · rw [if_neg hc]; exact Nat.zero_le _

theorem fracLen_append_stable (l : List Char) (h0 : Char) (r : List Char)
    (hd : h0.isDigit = false) (hdot : h0 ≠ '.') :
    fracLen (l ++ h0 :: r) = fracLen l := by
  cases l with
  | nil => simp [fracLen, hdot]
  | cons c rest =>
    show fracLen (c :: (rest ++ h0 :: r)) = fracLen (c :: rest)
    rw [fracLen, fracLen]
    by_cases hc : c = '.'
    · rw [if_pos hc, if_pos hc]
      rw [digitRun_append rest (h0 :: r), digitRun_cons_false h0 r hd]
      by_cases hfull : digitRun rest = rest.length
      · rw [if_pos hfull, ← hfull]
        simp
      · rw [if_neg hfull]
    · rw [if_neg hc, if_neg hc]

theorem expLen_le (l : List Char) : expLen l ≤ l.length := by
  cases l with
  | nil => simp [expLen]
  | cons c rest =>
    rw [expLen.eq_def]
    dsimp only
    by_cases hc : (c = 'e' || c = 'E') = true
    · rw [if_pos hc]
      cases rest with
      | nil => simp
      | cons c' rest' =>
        dsimp only
        by_cases hs : (c' = '+' || c' = '-') = true
        · rw [if_pos hs]
          have := digitRun_le rest'
          by_cases hz : digitRun rest' = 0
          · simp [hz]
          · simp [hz, List.length_cons]
            omega
        · rw [if_neg hs]
          have := digitRun_le (c' :: rest')
          by_cases hz : digitRun (c' :: rest') = 0
          · simp [hz]
          · simp [hz, List.length_cons]
            simp [List.length_cons] at this
            omega
    · rw [if_neg hc]; exact Nat.zero_le _

theorem expLen_append_full (l : List Char) (h0 : Char) (r : List Char)
    (hfull : expLen l = l.length)
    (hd : h0.isDigit = false) (he : h0 ≠ 'e') (hE : h0 ≠ 'E') :
    expLen (l ++ h0 :: r) = l.length := by
  cases l with
  | nil =>
    show expLen (h0 :: r) = 0
    rw [expLen.eq_def]
    dsimp only
    rw [if_neg (by simp [he, hE])]
  | cons c rest =>
    rw [expLen.eq_def] at hfull
    dsimp only at hfull
    show expLen (c :: (rest ++ h0 :: r)) = (c :: rest).length
    rw [expLen.eq_def]
    dsimp only
    by_cases hc : (c = 'e' || c = 'E') = true
    · rw [if_pos hc] at hfull ⊢
      cases rest with
      | nil => simp [List.length_cons] at hfull
      | cons c' rest' =>
        dsimp only [List.cons_append] at hfull ⊢
        by_cases hs : (c' = '+' || c' = '-') = true
        · rw [if_pos hs] at hfull ⊢
          by_cases hz : digitRun rest' = 0
          · rw [if_pos hz] at hfull
            simp [List.length_cons] at hfull
          · rw [if_neg hz] at hfull
            have hfull2 : digitRun rest' = rest'.length := by
              simp [List.length_cons] at hfull
              omega
            rw [digitRun_append rest' (h0 :: r), if_pos hfull2,
              digitRun_cons_false h0 r hd]
            rw [if_neg (by omega)]
            simp [List.length_cons]
            omega
        · rw [if_neg hs] at hfull ⊢
          by_cases hz : digitRun (c' :: rest') = 0
          · rw [if_pos hz] at hfull
            simp [List.length_cons] at hfull
          · rw [if_neg hz] at hfull
            have hfull2 : digitRun (c' :: rest') = (c' :: rest').length := by
              simp [List.length_cons] at hfull ⊢
              omega
            have hstep : digitRun ((c' :: rest') ++ h0 :: r) = digitRun (c' :: rest') := by
              rw [digitRun_append (c' :: rest') (h0 :: r), if_pos hfull2,
                digitRun_cons_false h0 r hd, ← hfull2]
              omega
            show (if digitRun ((c' :: rest') ++ h0 :: r) = 0 then 0
              else 1 + digitRun ((c' :: rest') ++ h0 :: r)) = _
            rw [hstep, if_neg hz]
            simp [List.length_cons] at hfull ⊢
            omega
    · rw [if_neg hc] at hfull
      simp [List.length_cons] at hfull

theorem numTail_append (l : List Char) (h0 : Char) (r : List Char)
    (hfull : numTail l = some l.length)
    (hd : h0.isDigit = false) (hdot : h0 ≠ '.') (he : h0 ≠ 'e') (hE : h0 ≠ 'E') :
    numTail (l ++ h0 :: r) = some l.length := by
  unfold numTail at hfull ⊢
  cases hint : intLen l with
  | none => rw [hint] at hfull; cases hfull
  | some il =>
    rw [hint] at hfull
    rw [intLen_append_stable l il h0 r hd hint]
    have hle := intLen_le l il hint
    dsimp only at hfull ⊢
    rw [List.drop_append_of_le_length hle]
    rw [fracLen_append_stable (l.drop il) h0 r hd hdot]
    have hfl := fracLen_le (l.drop il)
    rw [List.drop_append_of_le_length hfl]
    simp only [Option.some.injEq] at hfull
    have hlen1 : (l.drop il).length = l.length - il := List.length_drop il l
    have hlen2 : ((l.drop il).drop (fracLen (l.drop il))).length
        = (l.drop il).length - fracLen (l.drop il) := List.length_drop _ _
    have hexp_le := expLen_le ((l.drop il).drop (fracLen (l.drop il)))
    have hexp_full : expLen ((l.drop il).drop (fracLen (l.drop il)))
        = ((l.drop il).drop (fracLen (l.drop il))).length := by omega
    rw [expLen_append_full _ h0 r hexp_full hd he hE]
    simp only [Option.some.injEq]
    omega

theorem numberPat_append (t : List Char) (h0 : Char) (r : List Char)
    (hfull : numberPat t = some t.length)
    (hd : h0.isDigit = false) (hdot : h0 ≠ '.') (he : h0 ≠ 'e') (hE : h0 ≠ 'E') :
    numberPat (t ++ h0 :: r) = some t.length := by
  cases t with
  | nil => simp [numberPat] at hfull
  | cons c rest =>
    rw [numberPat] at hfull
    show numberPat (c :: (rest ++ h0 :: r)) = _
    rw [numberPat]
    by_cases hc : c = '-'
    · rw [if_pos hc] at hfull ⊢
      cases hnt : numTail rest with
      | none => rw [hnt] at hfull; cases hfull
      | some n =>
        rw [hnt] at hfull
        simp only [Option.some.injEq] at hfull
        have hn : n = rest.length := by simp [List.length_cons] at hfull; omega
        rw [numTail_append rest h0 r (by rw [hnt, hn]) hd hdot he hE]
        simp only [Option.some.injEq, List.length_cons]
        omega
    · rw [if_neg hc] at hfull ⊢
      exact numTail_append (c :: rest) h0 r hfull hd hdot he hE

theorem strTail_full_append :
    ∀ (n : Nat) (l : List Char), l.length ≤ n →
    ∀ (r : List Char), strTail l = some l.length → strTail (l ++ r) = some l.length := by
  intro n
  induction n with
  | zero =>
    intro l hl r h
    have hnil : l = [] := List.length_eq_zero.mp (Nat.le_zero.mp hl)
    subst hnil
    simp [strTail] at h
  | succ n ih =>
    intro l hl r h
    cases l with
    | nil => simp [strTail] at h
    | cons c rest =>
      rw [strTail.eq_def] at h
      dsimp only at h
      show strTail (c :: (rest ++ r)) = _
      rw [strTail.eq_def]
      dsimp only
      by_cases hq : c = '"'
      · rw [if_pos hq] at h ⊢
        simp only [Option.some.injEq, List.length_cons] at h
        have : rest = [] := by
          cases rest with
          | nil => rfl
          | cons a b => simp [List.length_cons] at h
        subst this
        simp
      · rw [if_neg hq] at h ⊢
        by_cases hb : c = '\\'
        · rw [if_pos hb] at h ⊢
          cases rest with
          | nil => simp at h
          | cons c2 rest2 =>
            dsimp only [List.cons_append] at h ⊢
            by_cases ht : isLineTerm c2 = true
            · rw [if_pos ht] at h; cases h
            · rw [if_neg (by simp [ht]) ] at h ⊢
              cases hs : strTail rest2 with
              | none => rw [hs] at h; cases h
              | some n2 =>
                rw [hs] at h
                simp only [Option.some.injEq, List.length_cons] at h
                have hn2 : n2 = rest2.length := by omega
                have hlen : rest2.length ≤ n := by
                  simp [List.length_cons] at hl; omega
                rw [ih rest2 hlen r (by rw [hs, hn2])]
                simp only [Option.some.injEq, List.length_cons]
                try omega
        · rw [if_neg hb] at h ⊢
          cases hs : strTail rest with
          | none => rw [hs] at h; cases h
          | some n1 =>
            rw [hs] at h
            simp only [Option.some.injEq, List.length_cons] at h
            have hn1 : n1 = rest.length := by omega
            have hlen : rest.length ≤ n := by
              simp [List.length_cons] at hl; omega
            rw [ih rest hlen r (by rw [hs, hn1])]
            simp only [Option.some.injEq, List.length_cons]
            try omega

theorem stringPat_append (t r : List Char) (hfull : stringPat t = some t.length) :
    stringPat (t ++ r) = some t.length := by
  cases t with
  | nil => simp [stringPat] at hfull
  | cons c rest =>
    rw [stringPat] at hfull
    show stringPat (c :: (rest ++ r)) = _
    rw [stringPat]
    by_cases hq : c = '"'
    · rw [if_pos hq] at hfull ⊢
      cases hs : strTail rest with
      | none => rw [hs] at hfull; cases hfull
      | some n =>
        rw [hs] at hfull
        simp only [Option.some.injEq, List.length_cons] at hfull
        have hn : n = rest.length := by omega
        rw [strTail_full_append rest.length rest (Nat.le_refl _) r (by rw [hs, hn])]
        simp only [Option.some.injEq, List.length_cons]
        try omega
    · rw [if_neg hq] at hfull; cases hfull

theorem takeWhile_all_append (w u : List Char) (p : Char → Bool) (hw : w.all p = true)
    (hu : u = [] ∨ ∃ h0 tail, u = h0 :: tail ∧ p h0 = false) :
    (w ++ u).takeWhile p = w := by
  induction w with
  | nil =>
    rcases hu with hu | ⟨h0, tail, hu, hp⟩
    · subst hu; rfl
    · subst hu
      simp [List.takeWhile_cons, hp]
  | cons c w' ih =>
    simp only [List.all_cons, Bool.and_eq_true] at hw
    simp [List.takeWhile_cons, hw.1, ih hw.2]

theorem wsPat_append (w u : List Char) (hw : wsAll w = true) (hne : w ≠ [])
    (hu : u = [] ∨ ∃ h0 tail, u = h0 :: tail ∧ isJsWs h0 = false) :
    wsPat (w ++ u) = some w.length := by
  unfold wsPat
  rw [takeWhile_all_append w u isJsWs hw hu]
  rw [if_neg (by simp [hne])]

theorem ffm_cons_some {σ : Type} (r : Rule σ) (rs : List (Rule σ)) (suffix : List Char)
    (n : Nat) (h : r.pat suffix = some n) :
    findFirstMatch (r :: rs) suffix = some (0, r, n) := by
  simp [findFirstMatch, h]

theorem ffm_cons_none {σ : Type} (r : Rule σ) (rs : List (Rule σ)) (suffix : List Char)
    (h : r.pat suffix = none) :
    findFirstMatch (r :: rs) suffix =
      match findFirstMatch rs suffix with
      | some (k, r', n) => some (k + 1, r', n)
      | none => none := by
  simp [findFirstMatch, h]

theorem isDigit19_facts (h : Char) (hd : isDigit19 h = true) :
    h ≠ 'n' ∧ h ≠ 't' ∧ h ≠ 'f' ∧ h ≠ '"' := by
  and_intros <;> intro he <;> rw [he] at hd <;> exact absurd hd (by decide)

/-- At a token's start, the combined alternation matches exactly that
token with the token's own rule: every earlier rule's pattern starts with
a different character class, and the token's rule cannot consume more
(for numbers this needs the following character to be non-extending). -/
theorem ffm_token (k : TokKind) (t rest : List Char) (htok : tokOk k t = true)
    (hsafe : k = TokKind.knum → rest = [] ∨ ∃ h0 tail, rest = h0 :: tail ∧
      h0.isDigit = false ∧ h0 ≠ '.' ∧ h0 ≠ 'e' ∧ h0 ≠ 'E') :
    findFirstMatch jsonRules (t ++ rest) = some (kindIdx k, kindRule k, t.length) := by
  cases k with
  | knull =>
    have ht : t = ['n', 'u', 'l', 'l'] := by simpa [tokOk] using htok
    subst ht
    simp only [jsonRules]
    rw [ffm_cons_some _ _ _ _ (litPat_self ['n', 'u', 'l', 'l'] rest)]
    rfl
  | ktrue =>
    have ht : t = ['t', 'r', 'u', 'e'] := by simpa [tokOk] using htok
    subst ht
    simp only [jsonRules, List.cons_append]
    rw [ffm_cons_none _ _ _ (litPat_cons_none 'n' ['u', 'l', 'l'] 't' (['r', 'u', 'e'] ++ rest) (by decide))]
    rw [ffm_cons_some _ _ _ _ (litPat_self ['t', 'r', 'u', 'e'] rest)]
    rfl
  | kfalse =>
    have ht : t = ['f', 'a', 'l', 's', 'e'] := by simpa [tokOk] using htok
    subst ht
    simp only [jsonRules, List.cons_append]
    rw [ffm_cons_none _ _ _ (litPat_cons_none 'n' ['u', 'l', 'l'] 'f' (['a', 'l', 's', 'e'] ++ rest) (by decide))]
    rw [ffm_cons_none _ _ _ (litPat_cons_none 't' ['r', 'u', 'e'] 'f' (['a', 'l', 's', 'e'] ++ rest) (by decide))]
    rw [ffm_cons_some _ _ _ _ (litPat_self ['f', 'a', 'l', 's', 'e'] rest)]
    rfl
  | knum =>
    have hfull : numberPat t = some t.length := by simpa [tokOk] using htok
    obtain ⟨h0, tail, ht, hclass⟩ := numberPat_head t t.length hfull
    have hn : h0 ≠ 'n' ∧ h0 ≠ 't' ∧ h0 ≠ 'f' := by
      rcases hclass with h1 | h1 | h1
      · subst h1; decide
      · subst h1; decide
      · obtain ⟨a, b, c, _⟩ := isDigit19_facts h0 h1
        exact ⟨a, b, c⟩
    have hmatch : numberPat (t ++ rest) = some t.length := by
      rcases hsafe rfl with hrest | ⟨g0, gtail, hrest, hgd, hgdot, hge, hgE⟩
      · subst hrest
        rw [List.append_nil]
        exact hfull
      · subst hrest
        exact numberPat_append t g0 gtail hfull hgd hgdot hge hgE
    subst ht
    simp only [jsonRules, List.cons_append]
    rw [ffm_cons_none _ _ _ (litPat_cons_none 'n' ['u', 'l', 'l'] h0 (tail ++ rest) hn.1)]
    rw [ffm_cons_none _ _ _ (litPat_cons_none 't' ['r', 'u', 'e'] h0 (tail ++ rest) hn.2.1)]
    rw [ffm_cons_none _ _ _ (litPat_cons_none 'f' ['a', 'l', 's', 'e'] h0 (tail ++ rest) hn.2.2)]
    rw [ffm_cons_some _ _ _ _
      (show ruleNumber.pat (h0 :: (tail ++ rest)) = some (h0 :: tail).length from hmatch)]
    rfl
  | kstr =>
    have hfull : stringPat t = some t.length := by simpa [tokOk] using htok
    obtain ⟨tail, ht⟩ := stringPat_head t t.length hfull
    have hmatch : stringPat (t ++ rest) = some t.length := stringPat_append t rest hfull
    subst ht
    simp only [jsonRules, List.cons_append]
    rw [ffm_cons_none _ _ _ (litPat_cons_none 'n' ['u', 'l', 'l'] '"' (tail ++ rest) (by decide))]
    rw [ffm_cons_none _ _ _ (litPat_cons_none 't' ['r', 'u', 'e'] '"' (tail ++ rest) (by decide))]
    rw [ffm_cons_none _ _ _ (litPat_cons_none 'f' ['a', 'l', 's', 'e'] '"' (tail ++ rest) (by decide))]
    rw [ffm_cons_none _ _ _ (numberPat_cons_none '"' (tail ++ rest) (by decide) (by decide) (by decide))]
    rw [ffm_cons_some _ _ _ _
      (show ruleString.pat ('"' :: (tail ++ rest)) = some ('"' :: tail).length from hmatch)]
    rfl
  | kopenA =>
    have ht : t = ['['] := by simpa [tokOk] using htok
    subst ht
    simp only [jsonRules, List.cons_append]
    rw [ffm_cons_none _ _ _ (litPat_cons_none 'n' ['u', 'l', 'l'] '[' rest (by decide))]
    rw [ffm_cons_none _ _ _ (litPat_cons_none 't' ['r', 'u', 'e'] '[' rest (by decide))]
    rw [ffm_cons_none _ _ _ (litPat_cons_none 'f' ['a', 'l', 's', 'e'] '[' rest (by decide))]
    rw [ffm_cons_none _ _ _ (numberPat_cons_none '[' rest (by decide) (by decide) (by decide))]
    rw [ffm_cons_none _ _ _ (stringPat_cons_none '[' rest (by decide))]
    rw [ffm_cons_some _ _ _ _ (charPat_self '[' rest)]
    rfl
  | kopenO =>
    have ht : t = ['{'] := by simpa [tokOk] using htok
    subst ht
    simp only [jsonRules, List.cons_append]
    rw [ffm_cons_none _ _ _ (litPat_cons_none 'n' ['u', 'l', 'l'] '{' rest (by decide))]
    rw [ffm_cons_none _ _ _ (litPat_cons_none 't' ['r', 'u', 'e'] '{' rest (by decide))]
    rw [ffm_cons_none _ _ _ (litPat_cons_none 'f' ['a', 'l', 's', 'e'] '{' rest (by decide))]
    rw [ffm_cons_none _ _ _ (numberPat_cons_none '{' rest (by decide) (by decide) (by decide))]
    rw [ffm_cons_none _ _ _ (stringPat_cons_none '{' rest (by decide))]
    rw [ffm_cons_none _ _ _ (charPat_cons_none '[' '{' rest (by decide))]
    rw [ffm_cons_some _ _ _ _ (charPat_self '{' rest)]
    rfl
  | kcloseA =>
    have ht : t = [']'] := by simpa [tokOk] using htok
    subst ht
    simp only [jsonRules, List.cons_append]
    rw [ffm_cons_none _ _ _ (litPat_cons_none 'n' ['u', 'l', 'l'] ']' rest (by decide))]
    rw [ffm_cons_none _ _ _ (litPat_cons_none 't' ['r', 'u', 'e'] ']' rest (by decide))]
    rw [ffm_cons_none _ _ _ (litPat_cons_none 'f' ['a', 'l', 's', 'e'] ']' rest (by decide))]
    rw [ffm_cons_none _ _ _ (numberPat_cons_none ']' rest (by decide) (by decide) (by decide))]
    rw [ffm_cons_none _ _ _ (stringPat_cons_none ']' rest (by decide))]
    rw [ffm_cons_none _ _ _ (charPat_cons_none '[' ']' rest (by decide))]
    rw [ffm_cons_none _ _ _ (charPat_cons_none '{' ']' rest (by decide))]
    rw [ffm_cons_some _ _ _ _ (charPat_self ']' rest)]
    rfl
  | kcloseO =>
    have ht : t = ['}'] := by simpa [tokOk] using htok
    subst ht
    simp only [jsonRules, List.cons_append]
    rw [ffm_cons_none _ _ _ (litPat_cons_none 'n' ['u', 'l', 'l'] '}' rest (by decide))]
    rw [ffm_cons_none _ _ _ (litPat_cons_none 't' ['r', 'u', 'e'] '}' rest (by decide))]
    rw [ffm_cons_none _ _ _ (litPat_cons_none 'f' ['a', 'l', 's', 'e'] '}' rest (by decide))]
    rw [ffm_cons_none _ _ _ (numberPat_cons_none '}' rest (by decide) (by decide) (by decide))]
    rw [ffm_cons_none _ _ _ (stringPat_cons_none '}' rest (by decide))]
    rw [ffm_cons_none _ _ _ (charPat_cons_none '[' '}' rest (by decide))]
    rw [ffm_cons_none _ _ _ (charPat_cons_none '{' '}' rest (by decide))]
    rw [ffm_cons_none _ _ _ (charPat_cons_none ']' '}' rest (by decide))]
    rw [ffm_cons_some _ _ _ _ (charPat_self '}' rest)]
    rfl
  | kcomma =>
    have ht : t = [','] := by simpa [tokOk] using htok
    subst ht
    simp only [jsonRules, List.cons_append]
    rw [ffm_cons_none _ _ _ (litPat_cons_none 'n' ['u', 'l', 'l'] ',' rest (by decide))]
    rw [ffm_cons_none _ _ _ (litPat_cons_none 't' ['r', 'u', 'e'] ',' rest (by decide))]
    rw [ffm_cons_none _ _ _ (litPat_cons_none 'f' ['a', 'l', 's', 'e'] ',' rest (by decide))]
    rw [ffm_cons_none _ _ _ (numberPat_cons_none ',' rest (by decide) (by decide) (by decide))]
    rw [ffm_cons_none _ _ _ (stringPat_cons_none ',' rest (by decide))]
    rw [ffm_cons_none _ _ _ (charPat_cons_none '[' ',' rest (by decide))]
    rw [ffm_cons_none _ _ _ (charPat_cons_none '{' ',' rest (by decide))]
    rw [ffm_cons_none _ _ _ (charPat_cons_none ']' ',' rest (by decide))]
    rw [ffm_cons_none _ _ _ (charPat_cons_none '}' ',' rest (by decide))]
    rw [ffm_cons_some _ _ _ _ (charPat_self ',' rest)]
    rfl
  | kcolon =>
    have ht : t = [':'] := by simpa [tokOk] using htok
    subst ht
    simp only [jsonRules, List.cons_append]
    rw [ffm_cons_none _ _ _ (litPat_cons_none 'n' ['u', 'l', 'l'] ':' rest (by decide))]
    rw [ffm_cons_none _ _ _ (litPat_cons_none 't' ['r', 'u', 'e'] ':' rest (by decide))]
    rw [ffm_cons_none _ _ _ (litPat_cons_none 'f' ['a', 'l', 's', 'e'] ':' rest (by decide))]
    rw [ffm_cons_none _ _ _ (numberPat_cons_none ':' rest (by decide) (by decide) (by decide))]
    rw [ffm_cons_none _ _ _ (stringPat_cons_none ':' rest (by decide))]
    rw [ffm_cons_none _ _ _ (charPat_cons_none '[' ':' rest (by decide))]
    rw [ffm_cons_none _ _ _ (charPat_cons_none '{' ':' rest (by decide))]
    rw [ffm_cons_none _ _ _ (charPat_cons_none ']' ':' rest (by decide))]
    rw [ffm_cons_none _ _ _ (charPat_cons_none '}' ':' rest (by decide))]
    rw [ffm_cons_none _ _ _ (charPat_cons_none ',' ':' rest (by decide))]
    rw [ffm_cons_some _ _ _ _ (charPat_self ':' rest)]
    rfl

/-- At the start of a whitespace run followed by a non-whitespace
character (or the end of input), the alternation matches the whole run
with the whitespace rule. -/
theorem ffm_ws (w u : List Char) (hw : wsAll w = true) (hne : w ≠ [])
    (hu : u = [] ∨ ∃ h0 tail, u = h0 :: tail ∧ isJsWs h0 = false) :
    findFirstMatch jsonRules (w ++ u) = some (11, ruleWs, w.length) := by
  obtain ⟨h0, w', rfl⟩ : ∃ h0 w', w = h0 :: w' := by
    cases w with
    | nil => exact absurd rfl hne
    | cons a b => exact ⟨a, b, rfl⟩
  have hh0 : isJsWs h0 = true := by
    simp only [wsAll, List.all_cons, Bool.and_eq_true] at hw
    exact hw.1
  obtain ⟨f1, f2, f3, f4, f5, f6, f7, f8, f9, f10, f11, f12, f13, _, _, _, _⟩ :=
    isJsWs_spec h0 hh0
  have hwsp : wsPat ((h0 :: w') ++ u) = some (h0 :: w').length :=
    wsPat_append (h0 :: w') u hw hne hu
  simp only [jsonRules, List.cons_append]
  rw [ffm_cons_none _ _ _ (litPat_cons_none 'n' ['u', 'l', 'l'] h0 (w' ++ u) f1)]
  rw [ffm_cons_none _ _ _ (litPat_cons_none 't' ['r', 'u', 'e'] h0 (w' ++ u) f2)]
  rw [ffm_cons_none _ _ _ (litPat_cons_none 'f' ['a', 'l', 's', 'e'] h0 (w' ++ u) f3)]
  rw [ffm_cons_none _ _ _ (numberPat_cons_none h0 (w' ++ u) f4 f5 f6)]
  rw [ffm_cons_none _ _ _ (stringPat_cons_none h0 (w' ++ u) f7)]
  rw [ffm_cons_none _ _ _ (charPat_cons_none '[' h0 (w' ++ u) f8)]
  rw [ffm_cons_none _ _ _ (charPat_cons_none '{' h0 (w' ++ u) f9)]
  rw [ffm_cons_none _ _ _ (charPat_cons_none ']' h0 (w' ++ u) f10)]
  rw [ffm_cons_none _ _ _ (charPat_cons_none '}' h0 (w' ++ u) f11)]
  rw [ffm_cons_none _ _ _ (charPat_cons_none ',' h0 (w' ++ u) f12)]
  rw [ffm_cons_none _ _ _ (charPat_cons_none ':' h0 (w' ++ u) f13)]
  rw [ffm_cons_some _ _ _ _
    (show ruleWs.pat (h0 :: (w' ++ u)) = some (h0 :: w').length from hwsp)]

/-- One step of the scan loop, when the alternation's match is known. -/
theorem scanRun_step {σ : Type} (rules : List (Rule σ)) (fuel : Nat) (suffix : List Char)
    (pos : Nat) (ctx : σ) (i : Nat) (r : Rule σ) (len : Nat)
    (hffm : findFirstMatch rules suffix = some (i, r, len))
    (hlen : len ≤ suffix.length) (hpos : 0 < len) :
    scanRun rules (fuel + 1) suffix pos ctx =
      match r.act (String.mk (suffix.take len)) ctx pos with
      | .error e => .error (e, some pos, pos + len)
      | .ok ctx' => scanRun rules fuel (suffix.drop len) (pos + len) ctx' := by
  have hmin : min len suffix.length = len := Nat.min_eq_left hlen
  have hne : ¬ (min len suffix.length = 0) := by
    rw [hmin]; exact Nat.pos_iff_ne_zero.mp hpos
  simp only [scanRun, hffm, hmin, hne, if_false]
  rw [if_neg (Nat.pos_iff_ne_zero.mp hpos)]

/-- Every token is nonempty and starts with a non-whitespace character. -/
theorem tok_head (k : TokKind) (t : List Char) (htok : tokOk k t = true) :
    ∃ h0 tail, t = h0 :: tail ∧ isJsWs h0 = false := by
  cases k with
  | knull =>
    have ht : t = ['n', 'u', 'l', 'l'] := by simpa [tokOk] using htok
    exact ⟨'n', _, ht, by decide⟩
  | ktrue =>
    have ht : t = ['t', 'r', 'u', 'e'] := by simpa [tokOk] using htok
    exact ⟨'t', _, ht, by decide⟩
  | kfalse =>
    have ht : t = ['f', 'a', 'l', 's', 'e'] := by simpa [tokOk] using htok
    exact ⟨'f', _, ht, by decide⟩
  | knum =>
    have hfull : numberPat t = some t.length := by simpa [tokOk] using htok
    obtain ⟨h0, tail, ht, hclass⟩ := numberPat_head t t.length hfull
    refine ⟨h0, tail, ht, ?_⟩
    by_cases hws : isJsWs h0 = true
    · obtain ⟨_, _, _, hm, h0ne, h19, _⟩ := isJsWs_spec h0 hws
      rcases hclass with h1 | h1 | h1
      · exact absurd h1 hm
      · exact absurd h1 h0ne
      · rw [h19] at h1; cases h1
    · exact Bool.eq_false_iff.mpr hws
  | kstr =>
    have hfull : stringPat t = some t.length := by simpa [tokOk] using htok
    obtain ⟨tail, ht⟩ := stringPat_head t t.length hfull
    exact ⟨'"', tail, ht, by decide⟩
  | kopenA =>
    have ht : t = ['['] := by simpa [tokOk] using htok
    exact ⟨'[', _, ht, by decide⟩
  | kopenO =>
    have ht : t = ['{'] := by simpa [tokOk] using htok
    exact ⟨'{', _, ht, by decide⟩
  | kcloseA =>
    have ht : t = [']'] := by simpa [tokOk] using htok
    exact ⟨']', _, ht, by decide⟩
  | kcloseO =>
    have ht : t = ['}'] := by simpa [tokOk] using htok
    exact ⟨'}', _, ht, by decide⟩
  | kcomma =>
    have ht : t = [','] := by simpa [tokOk] using htok
    exact ⟨',', _, ht, by decide⟩
  | kcolon =>
    have ht : t = [':'] := by simpa [tokOk] using htok
    exact ⟨':', _, ht, by decide⟩

/-- The scan steps over a whitespace run without changing the context. -/
theorem scanRun_ws_step (fuel : Nat) (w u : List Char) (pos : Nat) (ctx : Ctx)
    (hw : wsAll w = true) (hne : w ≠ [])
    (hu : u = [] ∨ ∃ h0 tail, u = h0 :: tail ∧ isJsWs h0 = false) :
    scanRun jsonRules (fuel + 1) (w ++ u) pos ctx
      = scanRun jsonRules fuel u (pos + w.length) ctx := by
  have hffm := ffm_ws w u hw hne hu
  have hwlen : w.length ≤ (w ++ u).length := by simp [List.length_append]
  have hwpos : 0 < w.length := List.length_pos.mpr hne
  rw [scanRun_step jsonRules fuel (w ++ u) pos ctx 11 ruleWs w.length hffm hwlen hwpos]
  show scanRun jsonRules fuel ((w ++ u).drop w.length) (pos + w.length) ctx = _
  rw [List.drop_left]

/-- The scan fails at a token whose action raises an error. -/
theorem scanRun_tok_step_err (fuel : Nat) (k : TokKind) (t rest : List Char) (pos : Nat)
    (ctx : Ctx) (e : Err) (htok : tokOk k t = true)
    (hsafe : k = TokKind.knum → rest = [] ∨ ∃ h0 tail, rest = h0 :: tail ∧
      h0.isDigit = false ∧ h0 ≠ '.' ∧ h0 ≠ 'e' ∧ h0 ≠ 'E')
    (hact : (kindRule k).act (String.mk t) ctx pos = .error e) :
    scanRun jsonRules (fuel + 1) (t ++ rest) pos ctx
      = .error (e, some pos, pos + t.length) := by
  have hffm := ffm_token k t rest htok hsafe
  obtain ⟨h0, tail, ht, _⟩ := tok_head k t htok
  have htlen : t.length ≤ (t ++ rest).length := by simp [List.length_append]
  have htpos : 0 < t.length := by rw [ht]; simp
  rw [scanRun_step jsonRules fuel (t ++ rest) pos ctx (kindIdx k) (kindRule k) t.length
    hffm htlen htpos]
  rw [List.take_left, hact]

/-- The scan steps over a token whose action succeeds. -/
theorem scanRun_tok_step_ok (fuel : Nat) (k : TokKind) (t rest : List Char) (pos : Nat)
    (ctx ctx' : Ctx) (htok : tokOk k t = true)
    (hsafe : k = TokKind.knum → rest = [] ∨ ∃ h0 tail, rest = h0 :: tail ∧
      h0.isDigit = false ∧ h0 ≠ '.' ∧ h0 ≠ 'e' ∧ h0 ≠ 'E')
    (hact : (kindRule k).act (String.mk t) ctx pos = .ok ctx') :
    scanRun jsonRules (fuel + 1) (t ++ rest) pos ctx
      = scanRun jsonRules fuel rest (pos + t.length) ctx' := by
  have hffm := ffm_token k t rest htok hsafe
  obtain ⟨h0, tail, ht, _⟩ := tok_head k t htok
  have htlen : t.length ≤ (t ++ rest).length := by simp [List.length_append]
  have htpos : 0 < t.length := by rw [ht]; simp
  rw [scanRun_step jsonRules fuel (t ++ rest) pos ctx (kindIdx k) (kindRule k) t.length
    hffm htlen htpos]
  rw [List.take_left, hact, List.drop_left]

theorem glue_cons (w0 t w : List Char) (k : TokKind)
    (more : List (TokKind × List Char × List Char)) :
    glue w0 ((k, t, w) :: more) = w0 ++ (t ++ glue w more) := by
  simp [glue, List.append_assoc]

theorem applyC_cons_ok (k : TokKind) (t w : List Char)
    (more : List (TokKind × List Char × List Char)) (c c' : Ctx)
    (h : kAct k t c = .ok c') :
    applyC ((k, t, w) :: more) c = applyC more (eraseCtx c') := by
  simp [applyC, h]

theorem applyC_cons_err (k : TokKind) (t w : List Char)
    (more : List (TokKind × List Char × List Char)) (c : Ctx) (e : Err)
    (h : kAct k t c = .error e) :
    applyC ((k, t, w) :: more) c = .error () := by
  simp [applyC, h]

theorem glue_cons_char (c : Char) (w : List Char)
    (items : List (TokKind × List Char × List Char)) :
    glue (c :: w) items = c :: glue w items := by
  cases items with
  | nil => rfl
  | cons item more =>
    obtain ⟨k, t, wi⟩ := item
    simp [glue]

/-- The scan of a reassembled input steps through exactly the given
whitespace runs and tokens: its outcome is the fold of the token actions,
and on success the scan consumes the whole input. -/
theorem scanRun_glue :
    ∀ (items : List (TokKind × List Char × List Char)) (w0 : List Char) (pos : Nat)
      (ctx : Ctx) (fuel : Nat),
    (glue w0 items).length < fuel →
    wsAll w0 = true → gapsOk items = true → itemsTok items = true → boundedB items = true →
    sqRun (scanRun jsonRules fuel (glue w0 items) pos ctx) = applyC items (eraseCtx ctx)
  ∧ (∀ c l, scanRun jsonRules fuel (glue w0 items) pos ctx = .ok (c, l) →
      l = pos + (glue w0 items).length) := by
  intro items
  induction items with
  | nil =>
    intro w0 pos ctx fuel hfuel hw0 _ _ _
    by_cases hne : w0 = []
    · subst hne
      cases fuel with
      | zero => exact absurd hfuel (by simp [glue])
      | succ f =>
        have hrun : scanRun jsonRules (f + 1) (glue [] []) pos ctx = .ok (ctx, pos) := rfl
        refine ⟨by rw [hrun]; rfl, ?_⟩
        intro c l h
        rw [hrun] at h
        injection h with h
        injection h with h1 h2
        simp [glue, ← h2]
    · cases fuel with
      | zero => exact absurd hfuel (Nat.not_lt_zero _)
      | succ f =>
        have hstep := scanRun_ws_step f w0 [] pos ctx hw0 hne (Or.inl rfl)
        rw [List.append_nil] at hstep
        have hffin : scanRun jsonRules f [] (pos + w0.length) ctx
            = .ok (ctx, pos + w0.length) := by
          cases f with
          | zero => rfl
          | succ f' => rfl
        have hglue : glue w0 ([] : List (TokKind × List Char × List Char)) = w0 := rfl
        rw [hglue]
        refine ⟨by rw [hstep, hffin]; rfl, ?_⟩
        intro c l h
        rw [hstep, hffin] at h
        injection h with h
        injection h with h1 h2
        rw [← h2]
  | cons item more ih =>
    obtain ⟨k, t, w⟩ := item
    intro w0 pos ctx fuel hfuel hw0 hgaps htoks hbound
    have hgaps2 : wsAll w = true ∧ gapsOk more = true := by
      simpa [gapsOk] using hgaps
    have htoks2 : tokOk k t = true ∧ itemsTok more = true := by
      simpa [itemsTok] using htoks
    obtain ⟨th0, ttail, ht, htws⟩ := tok_head k t htoks2.1
    have htpos : 0 < t.length := by rw [ht]; simp
    have hbound2 : boundedB more = true := by
      cases more with
      | nil => rfl
      | cons item2 more2 =>
        obtain ⟨k2, t2, w2⟩ := item2
        rw [boundedB] at hbound
        simp only [Bool.and_eq_true] at hbound
        exact hbound.2
    have hsafe : k = TokKind.knum → glue w more = [] ∨ ∃ h0 tail,
        glue w more = h0 :: tail ∧
        h0.isDigit = false ∧ h0 ≠ '.' ∧ h0 ≠ 'e' ∧ h0 ≠ 'E' := by
      intro hk
      cases hwshape : w with
      | cons c1 w1 =>
        have hc1 : isJsWs c1 = true := by
          rw [hwshape] at hgaps2
          have := hgaps2.1
          simp only [wsAll, List.all_cons, Bool.and_eq_true] at this
          exact this.1
        have hsp := isJsWs_spec c1 hc1
        obtain ⟨hd, hdot, he, hE⟩ := hsp.2.2.2.2.2.2.2.2.2.2.2.2.2
        exact Or.inr ⟨c1, glue w1 more, by rw [glue_cons_char], hd, hdot, he, hE⟩
      | nil =>
        cases more with
        | nil => exact Or.inl rfl
        | cons item2 more2 =>
          obtain ⟨k2, t2, w2⟩ := item2
          have htok2 : tokOk k2 t2 = true := by
            simp only [itemsTok, List.all_cons, Bool.and_eq_true] at htoks2
            exact htoks2.2.1
          obtain ⟨g0, gtail, ht2, _⟩ := tok_head k2 t2 htok2
          have hsafehead : numSafeHead t2 = true := by
            rw [boundedB] at hbound
            simp only [Bool.and_eq_true] at hbound
            have hcond := hbound.1
            rw [if_pos (by simp [hk, hwshape])] at hcond
            exact hcond
          rw [ht2] at hsafehead
          simp only [numSafeHead, Bool.not_eq_true', Bool.or_eq_false_iff,
            decide_eq_false_iff_not] at hsafehead
          obtain ⟨⟨⟨hd, hdot⟩, he⟩, hE⟩ := hsafehead
          refine Or.inr ⟨g0, gtail ++ glue w2 more2, ?_, hd, hdot, he, hE⟩
          show glue [] ((k2, t2, w2) :: more2) = g0 :: (gtail ++ glue w2 more2)
          rw [glue_cons [] t2 w2 k2 more2, ht2]
          rfl
    have key : ∀ (fuel2 pos2 : Nat), (t ++ glue w more).length < fuel2 →
        sqRun (scanRun jsonRules fuel2 (t ++ glue w more) pos2 ctx)
          = applyC ((k, t, w) :: more) (eraseCtx ctx)
      ∧ (∀ c l, scanRun jsonRules fuel2 (t ++ glue w more) pos2 ctx = .ok (c, l) →
          l = pos2 + (t ++ glue w more).length) := by
      intro fuel2 pos2 hfuel2
      cases fuel2 with
      | zero => exact absurd hfuel2 (Nat.not_lt_zero _)
      | succ f2 =>
        cases hact : (kindRule k).act (String.mk t) ctx pos2 with
        | error e =>
          have hstep := scanRun_tok_step_err f2 k t (glue w more) pos2 ctx e htoks2.1 hsafe hact
          have hka : ∃ e2, kAct k t (eraseCtx ctx) = .error e2 := by
            have hcompat := act_kAct k t ctx pos2
            rw [hact] at hcompat
            cases hka2 : kAct k t (eraseCtx ctx) with
            | error e2 => exact ⟨e2, rfl⟩
            | ok c2 => rw [hka2] at hcompat; exact absurd hcompat (by simp [sqE])
          obtain ⟨e2, hka⟩ := hka
          constructor
          · rw [hstep]
            rw [applyC_cons_err k t w more (eraseCtx ctx) e2 hka]
            rfl
          · intro c l h
            rw [hstep] at h
            cases h
        | ok ctx' =>
          have hstep := scanRun_tok_step_ok f2 k t (glue w more) pos2 ctx ctx' htoks2.1 hsafe hact
          have hka : ∃ c2, kAct k t (eraseCtx ctx) = .ok c2 ∧ eraseCtx c2 = eraseCtx ctx' := by
            have hcompat := act_kAct k t ctx pos2
            rw [hact] at hcompat
            cases hka2 : kAct k t (eraseCtx ctx) with
            | error e2 => rw [hka2] at hcompat; exact absurd hcompat (by simp [sqE])
            | ok c2 =>
              rw [hka2] at hcompat
              refine ⟨c2, rfl, ?_⟩
              simp only [sqE, Except.ok.injEq] at hcompat
              exact hcompat.symm
          obtain ⟨c2, hka, herase⟩ := hka
          have hlen2 : (glue w more).length < f2 := by
            rw [List.length_append] at hfuel2
            omega
          obtain ⟨ihA, ihB⟩ := ih w (pos2 + t.length) ctx' f2 hlen2 hgaps2.1 hgaps2.2
            htoks2.2 hbound2
          constructor
          · rw [hstep, ihA]
            rw [applyC_cons_ok k t w more (eraseCtx ctx) c2 hka, herase]
          · intro c l h
            rw [hstep] at h
            have := ihB c l h
            rw [List.length_append]
            omega
    by_cases hne : w0 = []
    · subst hne
      have hglue0 : glue ([] : List Char) ((k, t, w) :: more) = t ++ glue w more := by
        rw [glue_cons]
        rfl
      rw [hglue0]
      rw [hglue0] at hfuel
      exact key fuel pos hfuel
    · cases fuel with
      | zero => exact absurd hfuel (Nat.not_lt_zero _)
      | succ f =>
        have hglue1 : glue w0 ((k, t, w) :: more) = w0 ++ (t ++ glue w more) :=
          glue_cons w0 t w k more
        have hu : t ++ glue w more = [] ∨ ∃ h0 tail,
            t ++ glue w more = h0 :: tail ∧ isJsWs h0 = false := by
          refine Or.inr ⟨th0, ttail ++ glue w more, ?_, htws⟩
          rw [ht]
          rfl
        have hstep := scanRun_ws_step f w0 (t ++ glue w more) pos ctx hw0 hne hu
        have hlenf : (t ++ glue w more).length < f := by
          rw [hglue1, List.length_append] at hfuel
          have hw0pos : 0 < w0.length := List.length_pos.mpr hne
          omega
        obtain ⟨keyA, keyB⟩ := key f (pos + w0.length) hlenf
        rw [hglue1]
        constructor
        · rw [hstep, keyA]
        · intro c l h
          rw [hstep] at h
          have := keyB c l h
          rw [List.length_append]
          omega

/-- After a successful `add`, the resulting context rejects any further
value (value-value adjacency is always a grammar error). -/
theorem add_rejects (c : Ctx) (v : JSONVALUE) (c' : Ctx) (h : c.add v = .ok c') :
    ∀ u, c'.add u = .error (unexpectedValue u) := by
  intro u
  cases c with
  | root o =>
    cases o with
    | none =>
      injection h with h
      rw [← h]
      rfl
    | some _ => cases h
  | arrCtx s st state acc =>
    cases state with
    | INITIAL => injection h with h; rw [← h]; rfl
    | COMMA => injection h with h; rw [← h]; rfl
    | VALUE => cases h
  | objCtx s st state acc name =>
    cases state with
    | INITIAL =>
      cases v with
      | str n =>
        cases name with
        | none => injection h with h; rw [← h]; rfl
        | some _ => cases h
      | null => cases h
      | bool b => cases h
      | num t => cases h
      | arr xs => cases h
      | obj xs => cases h
    | COMMA =>
      cases v with
      | str n =>
        cases name with
        | none => injection h with h; rw [← h]; rfl
        | some _ => cases h
      | null => cases h
      | bool b => cases h
      | num t => cases h
      | arr xs => cases h
      | obj xs => cases h
    | COLON =>
      cases name with
      | some n => injection h with h; rw [← h]; rfl
      | none => cases h
    | NAME => cases h
    | VALUE => cases h

/-- On a context that rejects every `add`, every value-producing token
action fails (literals, numbers, strings, and both opening brackets). -/
theorem kAct_value_err (k : TokKind) (t : List Char) (c : Ctx)
    (hrej : ∀ u, c.add u = .error (unexpectedValue u))
    (hk : k = .knull ∨ k = .ktrue ∨ k = .kfalse ∨ k = .knum ∨ k = .kstr ∨
      k = .kopenA ∨ k = .kopenO) :
    ∃ e, kAct k t c = .error e := by
  rcases hk with hx | hx | hx | hx | hx | hx | hx <;> subst hx
  · exact ⟨_, hrej .null⟩
  · exact ⟨_, hrej (.bool true)⟩
  · exact ⟨_, hrej (.bool false)⟩
  · exact ⟨_, hrej (.num (String.mk t))⟩
  · cases hdq : dequote t 0 with
    | error e =>
      refine ⟨e, ?_⟩
      simp only [kAct, hdq]
    | ok cs =>
      refine ⟨unexpectedValue (.str (String.mk cs)), ?_⟩
      simp only [kAct, hdq]
      exact hrej (.str (String.mk cs))
  · show ∃ e, mkArrayContext c 0 = .error e
    unfold mkArrayContext
    rw [hrej (.arr [])]
    exact ⟨_, rfl⟩
  · show ∃ e, mkObjectContext c 0 = .error e
    unfold mkObjectContext
    rw [hrej (.obj [])]
    exact ⟨_, rfl⟩

/-- Rejection of `add` survives erasure. -/
theorem erase_rejects (c : Ctx) (hrej : ∀ u, c.add u = .error (unexpectedValue u)) :
    ∀ u, (eraseCtx c).add u = .error (unexpectedValue u) := by
  intro u
  rw [add_erase, hrej u]
  rfl

/-- In a successfully folded token list, every number token is followed
by a separator or closing bracket — whose first character can never
extend a number. -/
theorem applyC_succSafe :
    ∀ (items : List (TokKind × List Char × List Char)) (c r : Ctx),
    applyC items c = .ok r → itemsTok items = true → succSafe items = true := by
  intro items
  induction items with
  | nil => intro c r _ _; rfl
  | cons item more ih =>
    obtain ⟨k, t, w⟩ := item
    intro c r happly htoks
    have htoks2 : tokOk k t = true ∧ itemsTok more = true := by
      simpa [itemsTok] using htoks
    cases hka : kAct k t c with
    | error e =>
      rw [applyC_cons_err k t w more c e hka] at happly
      cases happly
    | ok c1 =>
      rw [applyC_cons_ok k t w more c c1 hka] at happly
      have hsucc_more : succSafe more = true := by
        cases more with
        | nil => rfl
        | cons item2 more2 => exact ih (eraseCtx c1) r happly htoks2.2
      cases more with
      | nil => rfl
      | cons item2 more2 =>
        obtain ⟨k2, t2, w2⟩ := item2
        rw [succSafe]
        rw [Bool.and_eq_true]
        refine ⟨?_, hsucc_more⟩
        by_cases hk : k = TokKind.knum
        · rw [if_pos hk]
          subst hk
          have hc1rej : ∀ u, c1.add u = .error (unexpectedValue u) :=
            add_rejects c (.num (String.mk t)) c1 hka
          have herej : ∀ u, (eraseCtx c1).add u = .error (unexpectedValue u) :=
            erase_rejects c1 hc1rej
          have htok2 : tokOk k2 t2 = true := by
            simp only [itemsTok, List.all_cons, Bool.and_eq_true] at htoks2
            exact htoks2.2.1
          have hka2ok : ∃ c2, kAct k2 t2 (eraseCtx c1) = .ok c2 := by
            cases hka2 : kAct k2 t2 (eraseCtx c1) with
            | ok c2 => exact ⟨c2, rfl⟩
            | error e2 =>
              rw [applyC_cons_err k2 t2 w2 more2 (eraseCtx c1) e2 hka2] at happly
              cases happly
          cases k2 with
          | kcloseA =>
            have ht2 : t2 = [']'] := by simpa [tokOk] using htok2
            rw [ht2]
            decide
          | kcloseO =>
            have ht2 : t2 = ['}'] := by simpa [tokOk] using htok2
            rw [ht2]
            decide
          | kcomma =>
            have ht2 : t2 = [','] := by simpa [tokOk] using htok2
            rw [ht2]
            decide
          | kcolon =>
            have ht2 : t2 = [':'] := by simpa [tokOk] using htok2
            rw [ht2]
            decide
          | knull =>
            obtain ⟨e2, he2⟩ := kAct_value_err .knull t2 (eraseCtx c1) herej (by simp)
            obtain ⟨c2, hc2⟩ := hka2ok
            rw [he2] at hc2
            cases hc2
          | ktrue =>
            obtain ⟨e2, he2⟩ := kAct_value_err .ktrue t2 (eraseCtx c1) herej (by simp)
            obtain ⟨c2, hc2⟩ := hka2ok
            rw [he2] at hc2
            cases hc2
          | kfalse =>
            obtain ⟨e2, he2⟩ := kAct_value_err .kfalse t2 (eraseCtx c1) herej (by simp)
            obtain ⟨c2, hc2⟩ := hka2ok
            rw [he2] at hc2
            cases hc2
          | knum =>
            obtain ⟨e2, he2⟩ := kAct_value_err .knum t2 (eraseCtx c1) herej (by simp)
            obtain ⟨c2, hc2⟩ := hka2ok
            rw [he2] at hc2
            cases hc2
          | kstr =>
            obtain ⟨e2, he2⟩ := kAct_value_err .kstr t2 (eraseCtx c1) herej (by simp)
            obtain ⟨c2, hc2⟩ := hka2ok
            rw [he2] at hc2
            cases hc2
          | kopenA =>
            obtain ⟨e2, he2⟩ := kAct_value_err .kopenA t2 (eraseCtx c1) herej (by simp)
            obtain ⟨c2, hc2⟩ := hka2ok
            rw [he2] at hc2
            cases hc2
          | kopenO =>
            obtain ⟨e2, he2⟩ := kAct_value_err .kopenO t2 (eraseCtx c1) herej (by simp)
            obtain ⟨c2, hc2⟩ := hka2ok
            rw [he2] at hc2
            cases hc2
        · rw [if_neg hk]

/-- Separator-safety of every number token implies the boundedness side
condition for arbitrary gap lists. -/
theorem boundedB_of_succSafe :
    ∀ items : List (TokKind × List Char × List Char),
    succSafe items = true → boundedB items = true := by
  intro items
  induction items with
  | nil => intro _; rfl
  | cons item more ih =>
    obtain ⟨k, t, w⟩ := item
    intro h
    cases more with
    | nil => rfl
    | cons item2 more2 =>
      obtain ⟨k2, t2, w2⟩ := item2
      rw [succSafe, Bool.and_eq_true] at h
      rw [boundedB, Bool.and_eq_true]
      refine ⟨?_, ih h.2⟩
      by_cases hk : k = TokKind.knum
      · subst hk
        rw [if_pos rfl] at h
        by_cases hw : w.isEmpty = true
        · rw [if_pos (by simp [hw])]
          exact h.1
        · rw [if_neg (by simp [hw])]
      · rw [if_neg (by simp [hk])]

/-- Token-list properties and the action fold depend only on the kinds
and token texts of the items, not on the gaps. -/
theorem map_kt_congr :
    ∀ (a b : List (TokKind × List Char × List Char)),
    a.map (fun x => (x.1, x.2.1)) = b.map (fun x => (x.1, x.2.1)) →
    itemsTok a = itemsTok b ∧ succSafe a = succSafe b ∧ ∀ c, applyC a c = applyC b c := by
  intro a
  induction a with
  | nil =>
    intro b hmap
    cases b with
    | nil => exact ⟨rfl, rfl, fun _ => rfl⟩
    | cons y b' => cases hmap
  | cons x a' ih =>
    obtain ⟨k, t, w⟩ := x
    intro b hmap
    cases b with
    | nil => cases hmap
    | cons y b' =>
      obtain ⟨k2, t2, w2⟩ := y
      simp only [List.map_cons, List.cons.injEq, Prod.mk.injEq] at hmap
      obtain ⟨⟨hk, ht⟩, htail⟩ := hmap
      subst hk
      subst ht
      obtain ⟨ih1, ih2, ih3⟩ := ih b' htail
      refine ⟨?_, ?_, ?_⟩
      · simp only [itemsTok, List.all_cons] at ih1 ⊢
        rw [ih1]
      · cases a' with
        | nil =>
          cases b' with
          | nil => rfl
          | cons z b'' => cases htail
        | cons xa a'' =>
          cases b' with
          | nil => cases htail
          | cons z b'' =>
            obtain ⟨ka2, ta2, wa2⟩ := xa
            obtain ⟨kb2, tb2, wb2⟩ := z
            simp only [List.map_cons, List.cons.injEq, Prod.mk.injEq] at htail
            obtain ⟨⟨hk2, ht2⟩, _⟩ := htail
            subst hk2
            subst ht2
            rw [succSafe, succSafe, ih2]
      · intro c
        cases hka : kAct k t c with
        | error e =>
          rw [applyC_cons_err k t w a' c e hka, applyC_cons_err k t w2 b' c e hka]
        | ok c1 =>
          rw [applyC_cons_ok k t w a' c c1 hka, applyC_cons_ok k t w2 b' c c1 hka]
          exact ih3 (eraseCtx c1)

/-- Finalization succeeds exactly on a filled root context. -/
theorem final_ok (c : Ctx) (v : JSONVALUE) (h : c.final = .ok v) :
    c = .root (some v) := by
  cases c with
  | root o =>
    cases o with
    | none => cases h
    | some u => injection h with h; rw [h]
  | arrCtx s st state acc => cases h
  | objCtx s st state acc name => cases h

/-- A context whose erasure is a root context is that root context. -/
theorem eraseCtx_root (c : Ctx) (o : Option JSONVALUE)
    (h : eraseCtx c = .root o) : c = .root o := by
  cases c with
  | root o' => exact h
  | arrCtx s st state acc => cases h
  | objCtx s st state acc name => cases h

/-- The character list underlying a literally constructed string. -/
theorem data_mk (l : List Char) : (String.mk l).data = l := rfl

/-- Claim C8: for every input on which the JSON parse succeeds, changing
only the whitespace between tokens (never inside a token) yields an input
on which the parse also succeeds with a structurally equal value.  The
two inputs are presented as token decompositions: a leading gap and a
list of (kind, token text, trailing gap) items.  Both decompositions list
the same tokens in the same order (`hmap`); every gap is whitespace; the
tokens are standalone tokens of their kinds; and the first decomposition
satisfies the scanner-boundedness side condition (a number token with an
empty trailing gap is followed by a character that cannot extend it) —
the corresponding condition for the second decomposition is derived,
since a successful parse never puts two adjacent value tokens. -/
theorem c8_whitespace_invariance
    (w0 w0' : List Char) (items items' : List (TokKind × List Char × List Char))
    (v : JSONVALUE)
    (hmap : items.map (fun x => (x.1, x.2.1)) = items'.map (fun x => (x.1, x.2.1)))
    (hw0 : wsAll w0 = true) (hw0' : wsAll w0' = true)
    (hg : gapsOk items = true) (hg' : gapsOk items' = true)
    (htok : itemsTok items = true) (hb : boundedB items = true)
    (hok : JSON_parse (String.mk (glue w0 items)) = .ok v) :
    JSON_parse (String.mk (glue w0' items')) = .ok v := by
  cases hp : Parser.parse jsonRules (String.mk (glue w0 items)) (.root none) with
  | error e =>
    simp only [JSON_parse, hp] at hok
    cases hok
  | ok ctx =>
    simp only [JSON_parse, hp] at hok
    have hctx : ctx = .root (some v) := final_ok ctx v hok
    subst hctx
    simp only [Parser.parse, data_mk] at hp
    cases hs : scanRun jsonRules ((glue w0 items).length + 1) (glue w0 items) 0
        (.root none) with
    | error p =>
      simp only [hs] at hp
      cases hp
    | ok pr =>
      obtain ⟨ctx0, li⟩ := pr
      simp only [hs] at hp
      split at hp
      · cases hp
      · injection hp with hp
        subst hp
        have hglue := scanRun_glue items w0 0 (.root none)
          ((glue w0 items).length + 1) (Nat.lt_succ_self _) hw0 hg htok hb
        have h1 := hglue.1
        rw [hs] at h1
        simp only [sqRun, eraseCtx] at h1
        have happly : applyC items (.root none) = .ok (.root (some v)) := h1.symm
        obtain ⟨hLtok, hLsucc, hLapply⟩ := map_kt_congr items items' hmap
        have htok' : itemsTok items' = true := hLtok ▸ htok
        have hsucc : succSafe items = true :=
          applyC_succSafe items (.root none) (.root (some v)) happly htok
        have hsucc' : succSafe items' = true := hLsucc ▸ hsucc
        have hb' : boundedB items' = true := boundedB_of_succSafe items' hsucc'
        have happly' : applyC items' (.root none) = .ok (.root (some v)) :=
          (hLapply (.root none)).symm.trans happly
        have hglue' := scanRun_glue items' w0' 0 (.root none)
          ((glue w0' items').length + 1) (Nat.lt_succ_self _) hw0' hg' htok' hb'
        cases hs' : scanRun jsonRules ((glue w0' items').length + 1)
            (glue w0' items') 0 (.root none) with
        | error p =>
          have h1' := hglue'.1
          rw [hs'] at h1'
          simp only [sqRun, eraseCtx] at h1'
          rw [happly'] at h1'
          cases h1'
        | ok pr' =>
          obtain ⟨c', li'⟩ := pr'
          have h1' := hglue'.1
          rw [hs'] at h1'
          simp only [sqRun, eraseCtx] at h1'
          rw [happly'] at h1'
          injection h1' with h1'
          have hc' : c' = .root (some v) := eraseCtx_root c' (some v) h1'
          have hli' : li' = 0 + (glue w0' items').length := hglue'.2 c' li' hs'
          have hnlt : ¬ li' < (glue w0' items').length := by omega
          simp only [JSON_parse, Parser.parse, data_mk, hs']
          rw [if_neg hnlt]
          show Ctx.final c' = Except.ok v
          rw [hc']
          rfl

/-- Witness for C8: the input decomposed as `[1 ,2]` parses to the array
of 1 and 2, and the theorem transports that success to the reformatted
input ` [1,2 ]` with the same tokens under different whitespace. -/
theorem c8_whitespace_invariance_witness :
    JSON_parse (String.mk (glue [' ']
      [(.kopenA, ['['], []), (.knum, ['1'], []), (.kcomma, [','], []),
       (.knum, ['2'], [' ']), (.kcloseA, [']'], [])])) =
      .ok (.arr [.num (String.mk ['1']), .num (String.mk ['2'])]) :=
  c8_whitespace_invariance [] [' ']
    [(.kopenA, ['['], []), (.knum, ['1'], [' ']), (.kcomma, [','], []),
     (.knum, ['2'], []), (.kcloseA, [']'], [])]
    [(.kopenA, ['['], []), (.knum, ['1'], []), (.kcomma, [','], []),
     (.knum, ['2'], [' ']), (.kcloseA, [']'], [])]
    (.arr [.num (String.mk ['1']), .num (String.mk ['2'])])
    rfl rfl rfl rfl rfl rfl rfl rfl
